import Mathlib

/-!
Shallow embedding of the htmlux HTML parsing / query / extraction stack:
the tokenizer (`tokenize` in src/tokenizer.ts), the tree builder
(`buildTree` in src/dom.ts), the selector engine (`querySelectorAll` in
src/query.ts), the query facade (src/parser.ts) and the extraction engine
(src/extractor.ts), together with proofs about the frozen claims.

JavaScript strings are modelled as Lean `String` / `List Char`;
`String.prototype.toLowerCase` is modelled by its ASCII action (all tag and
attribute names in the claims are ASCII); JS `Map` objects are modelled as
insertion-ordered association lists with `Map.set` semantics; thrown
exceptions are modelled with `Except String`.
-/

namespace Htmlux

/-! ## Small JS-string helpers -/

/-- An ASCII uppercase letter (code point between 65 and 90). -/
def isUpperAscii (c : Char) : Bool := 65 ≤ c.toNat ∧ c.toNat ≤ 90

/-- ASCII action of `String.prototype.toLowerCase` on one character. -/
def jsLowerChar (c : Char) : Char :=
  if 65 ≤ c.toNat ∧ c.toNat ≤ 90 then Char.ofNat (c.toNat + 32) else c

/-- ASCII action of `String.prototype.toLowerCase` on a character list. -/
def jsLowerL (s : List Char) : List Char := s.map jsLowerChar

/-- ASCII action of `String.prototype.toLowerCase`. -/
def jsLower (s : String) : String := ⟨jsLowerL s.data⟩

/-- JS whitespace test for the characters appearing in `\s` / `trim`. -/
def isWs (c : Char) : Bool := c = ' ' ∨ c = '\t' ∨ c = '\n' ∨ c = '\r'

/-- `String.prototype.trim` on a character list. -/
def trimL (s : List Char) : List Char :=
  ((s.dropWhile isWs).reverse.dropWhile isWs).reverse

/-- Index of the first occurrence of a character (JS `indexOf` restricted to
the scanned suffix). -/
def idxOf (c : Char) : List Char → Option Nat
  | [] => none
  | a :: s => if a = c then some 0 else (idxOf c s).map (· + 1)

/-- Whether `pat` is a prefix of `s`. -/
def isPrefixL (pat s : List Char) : Bool :=
  match pat, s with
  | [], _ => true
  | _ :: _, [] => false
  | p :: ps, a :: as => p = a ∧ isPrefixL ps as

/-- Index of the first occurrence of the substring `pat` (JS `indexOf` with a
string pattern, restricted to the scanned suffix).  A search for the empty
pattern returns `0`, as in JS. -/
def subIdx (pat : List Char) : List Char → Option Nat
  | [] => if pat = [] then some 0 else none
  | a :: s => if isPrefixL pat (a :: s) then some 0 else (subIdx pat s).map (· + 1)

/-- JS `Array.prototype.slice(0, n)` (an `end` index, possibly negative). -/
def jsSlice {α : Type} (l : List α) (n : Int) : List α :=
  if 0 ≤ n then l.take n.toNat else l.take ((l.length : Int) + n).toNat

/-- Helper for whitespace splitting: accumulates the current word
(reversed) and emits words at whitespace boundaries. -/
def wordsAux : List Char → List Char → List (List Char)
  | [], acc => if acc = [] then [] else [acc.reverse]
  | c :: s, acc =>
    if isWs c then
      (if acc = [] then wordsAux s [] else acc.reverse :: wordsAux s [])
    else wordsAux s (c :: acc)

/-- Splitting on runs of whitespace followed by `filter(Boolean)`, the common
JS idiom `s.split(/\s+/).filter(Boolean)` (which never keeps empty
fragments). -/
def splitWsNonempty (s : String) : List String :=
  (wordsAux s.data []).map (fun l => (⟨l⟩ : String))

/-! ## Association-list model of JS `Map` -/

/-- `Map.prototype.get` (`none` for a missing key). -/
def mapGet (m : List (String × String)) (k : String) : Option String :=
  match m with
  | [] => none
  | (k', v) :: m' => if k' = k then some v else mapGet m' k

/-- `Map.prototype.set`: updates the value in place if the key exists
(keeping its insertion position), otherwise appends the pair. -/
def mapSet (m : List (String × String)) (k v : String) : List (String × String) :=
  match m with
  | [] => [(k, v)]
  | (k', v') :: m' => if k' = k then (k', v) :: m' else (k', v') :: mapSet m' k v

/-! ## The Node graph (src/dom.ts) -/

/-- One vertex of the parsed document tree: an element (`tag` non-empty) or a
text leaf (`text` non-empty).  The `parent` back-reference of the source is a
derived traversal aid and is not part of the value model. -/
inductive Node : Type where
  | mk (tag : String) (attrs : List (String × String)) (text : String)
       (children : List Node)

def Node.tag : Node → String
  | .mk t _ _ _ => t

def Node.attrs : Node → List (String × String)
  | .mk _ a _ _ => a

def Node.text : Node → String
  | .mk _ _ x _ => x

def Node.children : Node → List Node
  | .mk _ _ _ c => c

mutual

/-- A size measure with `nodeWeight n > 2 * (sum of children weights)`,
used to justify termination of the selector work-stack loop. -/
def nodeWeight : Node → Nat
  | .mk _ _ _ cs => 1 + 2 * nodesWeight cs

def nodesWeight : List Node → Nat
  | [] => 0
  | c :: cs => nodeWeight c + nodesWeight cs

end

mutual

/-- Decidable equality for the nested `Node` inductive. -/
def Node.deq : (a b : Node) → Decidable (a = b)
  | .mk t₁ a₁ x₁ c₁, .mk t₂ a₂ x₂ c₂ =>
    match decEq t₁ t₂ with
    | isFalse h => isFalse (by intro he; cases he; exact h rfl)
    | isTrue h₁ =>
      match decEq a₁ a₂ with
      | isFalse h => isFalse (by intro he; cases he; exact h rfl)
      | isTrue h₂ =>
        match decEq x₁ x₂ with
        | isFalse h => isFalse (by intro he; cases he; exact h rfl)
        | isTrue h₃ =>
          match Node.deqList c₁ c₂ with
          | isFalse h => isFalse (by intro he; cases he; exact h rfl)
          | isTrue h₄ => isTrue (by rw [h₁, h₂, h₃, h₄])

def Node.deqList : (a b : List Node) → Decidable (a = b)
  | [], [] => isTrue rfl
  | [], _ :: _ => isFalse (by intro h; cases h)
  | _ :: _, [] => isFalse (by intro h; cases h)
  | x :: xs, y :: ys =>
    match Node.deq x y with
    | isFalse h => isFalse (by intro he; cases he; exact h rfl)
    | isTrue h₁ =>
      match Node.deqList xs ys with
      | isFalse h => isFalse (by intro he; cases he; exact h rfl)
      | isTrue h₂ => isTrue (by rw [h₁, h₂])

end

instance : DecidableEq Node := Node.deq

mutual

/-- Proper descendants of a node, in depth-first pre-order (document
order). -/
def descendants : Node → List Node
  | .mk _ _ _ cs => descList cs

def descList : List Node → List Node
  | [] => []
  | c :: cs => c :: descendants c ++ descList cs

end

mutual

/-- `Node.getText`: the node's own text if non-empty, otherwise the
concatenated text of its children. -/
def getText : Node → String
  | .mk _ _ t cs => if t ≠ "" then t else getTextList cs

def getTextList : List Node → String
  | [] => ""
  | c :: cs => getText c ++ getTextList cs

end

/-- The serialized form `k="v"` of one attribute entry. -/
def attrEntryL (kv : String × String) : List Char :=
  kv.1.data ++ '=' :: '"' :: kv.2.data ++ ['"']

/-- `[...attrs.entries()].map(([k,v]) => `k="v"`).join(' ')`. -/
def attrsJoin : List (String × String) → List Char
  | [] => []
  | [kv] => attrEntryL kv
  | kv :: rest => attrEntryL kv ++ ' ' :: attrsJoin rest

mutual

/-- `Node.toString`: the node's own text if non-empty, otherwise
`<tag attrs>inner</tag>` (as a character list). -/
def serializeL : Node → List Char
  | .mk tag attrs t cs =>
    if t ≠ "" then t.data
    else
      let astr := attrsJoin attrs
      let attrStr := if astr = [] then [] else ' ' :: astr
      '<' :: tag.data ++ attrStr ++ '>' :: innerL cs ++ '<' :: '/' :: tag.data ++ ['>']

/-- `Node.getInnerHTML`: concatenated serialization of the children. -/
def innerL : List Node → List Char
  | [] => []
  | c :: cs => serializeL c ++ innerL cs

end

/-! ## Tokens and the tokenizer (src/tokenizer.ts) -/

/-- The tokenizer's output alphabet: `text`, `open`, `self-closing`, `close`.
A missing `attrs` map (`undefined`) and an empty map are indistinguishable to
the tree builder, so both are represented by `[]`. -/
inductive Token : Type where
  | text (content : String)
  | openTag (tag : String) (attrs : List (String × String))
  | selfClose (tag : String) (attrs : List (String × String))
  | closeTag (tag : String)
  deriving DecidableEq

/-- Characters accepted by the tag-name pattern `^([a-zA-Z0-9-_:]+)`. -/
def isNameChar (c : Char) : Bool :=
  ('a' ≤ c ∧ c ≤ 'z') ∨ ('A' ≤ c ∧ c ≤ 'Z') ∨ ('0' ≤ c ∧ c ≤ '9') ∨
    c = '-' ∨ c = '_' ∨ c = ':'

/-- The fixed void-element set of the tokenizer. -/
def selfClosingTags : List String :=
  ["area", "base", "br", "col", "embed", "hr", "img", "input", "link",
   "meta", "param", "source", "track", "wbr"]

/-- One optional-value parse of the attribute regex
`(?:\s*=\s*(?:"([^"]*)"|'([^']*)'|([^\s"'>]+)))?` applied right after an
attribute name: `some (value, rest)` on success, `none` when the optional
group matches empty (the scan then resumes right after the name). -/
def parseValue (r : List Char) : Option (List Char × List Char) :=
  match r.dropWhile isWs with
  | [] => none
  | c :: r2' =>
    if c = '=' then
      match r2'.dropWhile isWs with
      | [] => none
      | c2 :: rv =>
        if c2 = '"' then
          match idxOf '"' rv with
          | some k => some (rv.take k, rv.drop (k + 1))
          | none => none
        else if c2 = '\'' then
          match idxOf '\'' rv with
          | some k => some (rv.take k, rv.drop (k + 1))
          | none => none
        else
          let v := (c2 :: rv).takeWhile (fun a => ¬ isWs a ∧ a ≠ '"' ∧ a ≠ '\'' ∧ a ≠ '>')
          if v = [] then none else some (v, (c2 :: rv).drop v.length)
    else none

theorem length_dropWhile_le (p : Char → Bool) (l : List Char) :
    (l.dropWhile p).length ≤ l.length := by
  induction l with
  | nil => simp [List.dropWhile]
  | cons a l ih => simp only [List.dropWhile]; split <;> simp <;> omega

theorem parseValue_length {r v rest : List Char}
    (h : parseValue r = some (v, rest)) : rest.length < r.length := by
  unfold parseValue at h
  split at h
  · exact absurd h (by simp)
  next c r2' heq =>
    have h1 : r2'.length + 1 ≤ r.length := by
      have := length_dropWhile_le isWs r
      rw [heq] at this
      simpa using this
    split at h
    · split at h
      · exact absurd h (by simp)
      next c2 rv heq2 =>
        have h2 : rv.length + 1 ≤ r2'.length := by
          have := length_dropWhile_le isWs r2'
          rw [heq2] at this
          simpa using this
        split at h
        · split at h <;> simp at h
          rcases h with ⟨-, hrest⟩
          subst hrest
          simp only [List.length_drop]
          omega
        · split at h
          · split at h <;> simp at h
            rcases h with ⟨-, hrest⟩
            subst hrest
            simp only [List.length_drop]
            omega
          · dsimp only [] at h
            split at h <;> simp at h
            rcases h with ⟨-, hrest⟩
            subst hrest
            simp only [List.length_drop, List.length_cons]
            omega
    · exact absurd h (by simp)


/-- The attribute-scanning loop: repeated global `exec` of
`([^\s=]+)(?:\s*=\s*(?:"([^"]*)"|'([^']*)'|([^\s"'>]+)))?` over the tag
body, inserting `attrs.set(name.toLowerCase(), value)` per match.  A
position where no match can start (whitespace or `=`) is skipped; an
attribute name is a maximal run of other characters.  The loop is
fuel-indexed; every iteration consumes at least one character, so
`s.length + 1` fuel always suffices (`parseAttrsLoopF_congr`). -/
def parseAttrsLoopF : Nat → List Char → List (String × String) →
    List (String × String)
  | 0, _, acc => acc
  | fuel + 1, s, acc =>
    match s with
    | [] => acc
    | c :: s' =>
      if isWs c ∨ c = '=' then parseAttrsLoopF fuel s' acc
      else
        let name := (c :: s').takeWhile (fun a => ¬ isWs a ∧ a ≠ '=')
        let r := (c :: s').drop name.length
        match parseValue r with
        | some (v, rest) => parseAttrsLoopF fuel rest (mapSet acc ⟨jsLowerL name⟩ ⟨v⟩)
        | none => parseAttrsLoopF fuel r (mapSet acc ⟨jsLowerL name⟩ "")

/-- Attribute parsing of a tag body (the scanning loop from an empty map,
with enough fuel). -/
def parseAttrs (s : List Char) : List (String × String) :=
  parseAttrsLoopF (s.length + 1) s []

theorem takeWhile_nonWsEq_len {c : Char} {s : List Char}
    (hc : ¬ (isWs c = true ∨ c = '=')) :
    1 ≤ ((c :: s).takeWhile (fun a => ¬ isWs a ∧ a ≠ '=')).length := by
  rw [List.takeWhile_cons,
    if_pos (by
      simp only [decide_eq_true_eq]
      exact ⟨fun h => hc (Or.inl h), fun h => hc (Or.inr h)⟩)]
  simp

/-- Fuel sufficiency for the attribute loop: any fuel beyond the input
length gives the same result. -/
theorem parseAttrsLoopF_congr :
    ∀ (fuel₁ fuel₂ : Nat) (s : List Char) (acc : List (String × String)),
      s.length < fuel₁ → s.length < fuel₂ →
      parseAttrsLoopF fuel₁ s acc = parseAttrsLoopF fuel₂ s acc := by
  intro fuel₁
  induction fuel₁ with
  | zero => intro fuel₂ s acc h1; omega
  | succ f₁ ih =>
    intro fuel₂ s acc h1 h2
    match fuel₂ with
    | 0 => omega
    | f₂ + 1 =>
      simp only [parseAttrsLoopF]
      match s with
      | [] => rfl
      | c :: s' =>
        simp only []
        split
        · exact ih f₂ s' acc (by simp at h1; omega) (by simp at h2; omega)
        · rename_i hc
          have hname := @takeWhile_nonWsEq_len c s' hc
          have hr : ((c :: s').drop
              (((c :: s').takeWhile (fun a => ¬ isWs a ∧ a ≠ '=')).length)).length =
              (c :: s').length -
              ((c :: s').takeWhile (fun a => ¬ isWs a ∧ a ≠ '=')).length :=
            List.length_drop ..
          have hlen : (c :: s').length = s'.length + 1 := by simp
          split
          · rename_i v rest hv
            have hpv := parseValue_length hv
            exact ih f₂ rest _ (by simp at h1; omega) (by simp at h2; omega)
          · exact ih f₂ _ _ (by simp at h1; omega) (by simp at h2; omega)

/-- One iteration of the tokenizer loop from the position of a `<`:
the emitted tokens and either the suffix at which scanning continues or
`none` when scanning stops (`indexOf('>') === -1`). -/
def tagStep (t : List Char) : List Token × Option (List Char) :=
  match idxOf '>' (t.drop 1) with
  | none => ([], none)
  | some g =>
    let body := (t.drop 1).take g
    let tagRaw := trimL body
    let after := t.drop (g + 2)
    if isPrefixL ['!', '-', '-'] tagRaw then
      match subIdx ['-', '-', '>'] (t.drop 4) with
      | none => ([], some after)
      | some k => ([], some (t.drop (4 + k + 3)))
    else if isPrefixL ['!'] tagRaw then
      ([], some after)
    else if isPrefixL ['/'] tagRaw then
      let tagName := jsLowerL (trimL (tagRaw.drop 1))
      ((if tagName = [] then [] else [Token.closeTag ⟨tagName⟩]), some after)
    else
      let name := tagRaw.takeWhile isNameChar
      if name = [] then ([], some after)
      else
        let tag := jsLowerL name
        if tag = "script".data ∨ tag = "style".data then
          match subIdx ('<' :: '/' :: tag ++ ['>']) (t.drop (g + 2)) with
          | none => ([], some after)
          | some k => ([], some (t.drop (g + 2 + k + (tag.length + 3))))
        else
          let attrPart0 := trimL (tagRaw.drop name.length)
          let attrPart :=
            if attrPart0.getLast? = some '/' then attrPart0.dropLast else attrPart0
          let attrs := parseAttrs attrPart
          let selfC := tagRaw.getLast? = some '/' ∨ selfClosingTags.contains ⟨tag⟩
          ([if selfC then Token.selfClose ⟨tag⟩ attrs else Token.openTag ⟨tag⟩ attrs],
            some after)

/-- Fuel-indexed tokenizer loop: each recursive call is one iteration of
the source's `while (i < length)` loop, on the unscanned suffix. -/
def tokenizeF : Nat → List Char → List Token
  | 0, _ => []
  | fuel + 1, s =>
    match idxOf '<' s with
    | none => if s = [] then [] else [Token.text ⟨s⟩]
    | some lt =>
      let pre := s.take lt
      let preT : List Token := if lt = 0 then [] else [Token.text ⟨pre⟩]
      match tagStep (s.drop lt) with
      | (ts, none) => preT ++ ts
      | (ts, some s') => preT ++ ts ++ tokenizeF fuel s'

/-- `tokenize(html)`: the loop with enough fuel (sufficiency is proved
below). -/
def tokenize (s : List Char) : List Token :=
  tokenizeF (s.length + 1) s

/-- `tokenize` applied to a `String`, as exported by the module. -/
def tokenizeStr (s : String) : List Token :=
  tokenize s.data

/-! ## The tree builder (src/dom.ts, `buildTree`)

The source mutates `children` arrays of nodes held on an explicit stack.
The functional model keeps a stack of open frames (tag, attrs, children
accumulated so far, the head being the innermost open element) and realizes
a frame as a `Node` when it is closed — or, for still-open frames, at end of
input, which reproduces "unclosed elements remain attached". -/

/-- An open element on the build stack. -/
structure Frame : Type where
  tag : String
  attrs : List (String × String)
  children : List Node
  deriving DecidableEq

def Frame.toNode (f : Frame) : Node := .mk f.tag f.attrs "" f.children

/-- Appending a realized child node to the innermost open frame (the
source's `current.children.push(...)`). -/
def addChild (n : Node) : List Frame → List Frame
  | [] => []
  | f :: st => { f with children := f.children ++ [n] } :: st

/-- One token of the `buildTree` loop. -/
def buildStep (st : List Frame) (t : Token) : List Frame :=
  match t with
  | .text c => if c = "" then st else addChild (.mk "" [] c []) st
  | .openTag tag attrs => ⟨tag, attrs, []⟩ :: st
  | .selfClose tag attrs => addChild (.mk tag attrs "" []) st
  | .closeTag tag =>
    match st with
    | top :: next :: rest =>
      if top.tag = tag then addChild top.toNode (next :: rest) else st
    | _ => st

/-- Realizing the stack at end of input, starting from the innermost open
frame: every still-open frame stays attached as a child of the frame below
it. -/
def finalizeAux : Frame → List Frame → Node
  | f, [] => f.toNode
  | top, next :: rest =>
    finalizeAux { next with children := next.children ++ [top.toNode] } rest

def finalize : List Frame → Node
  | [] => .mk "document" [] "" []
  | f :: rest => finalizeAux f rest

/-- The root frame for the synthetic `document` node. -/
def rootFrame : Frame := ⟨"document", [], []⟩

/-- `buildTree(tokens)`. -/
def buildTree (tokens : List Token) : Node :=
  finalize (tokens.foldl buildStep [rootFrame])

/-! ## The selector engine (src/query.ts) -/

/-- A compiled simple-selector fragment (the four matcher forms of
`compileMatcher`). -/
inductive Matcher : Type where
  | idSel (i : String)
  | clsSel (c : String)
  | attrHas (name : String)
  | attrEq (name : String) (v : String)
  | tagSel (t : String)
  deriving DecidableEq

/-- The regex `^\[([a-zA-Z0-9_-]+)(?:=["']?([^"'\]]+)["']?)?\]$` for
attribute selectors, as a deterministic parser (the regex is deterministic
on every input because quotes are excluded from the value characters). -/
def attrSelChar (c : Char) : Bool :=
  ('a' ≤ c ∧ c ≤ 'z') ∨ ('A' ≤ c ∧ c ≤ 'Z') ∨ ('0' ≤ c ∧ c ≤ '9') ∨
    c = '_' ∨ c = '-'

def attrSelParse (s : List Char) : Option (List Char × Option (List Char)) :=
  match s with
  | '[' :: s1 =>
    let name := s1.takeWhile attrSelChar
    if name = [] then none
    else
      match s1.drop name.length with
      | [']'] => some (name, none)
      | '=' :: s2 =>
        let s3 := if isPrefixL ['"'] s2 ∨ isPrefixL ['\''] s2 then s2.drop 1 else s2
        let v := s3.takeWhile (fun c => c ≠ '"' ∧ c ≠ '\'' ∧ c ≠ ']')
        if v = [] then none
        else
          match s3.drop v.length with
          | [']'] => some (name, some v)
          | ['"', ']'] => some (name, some v)
          | ['\'', ']'] => some (name, some v)
          | _ => none
      | _ => none
  | _ => none

/-- `compileMatcher(selector)`. -/
def compileMatcher (selector : String) : Matcher :=
  match selector.data with
  | '#' :: i => .idSel ⟨i⟩
  | '.' :: c => .clsSel ⟨c⟩
  | _ =>
    match attrSelParse selector.data with
    | some (name, none) => .attrHas ⟨name⟩
    | some (name, some v) => .attrEq ⟨name⟩ ⟨v⟩
    | none => .tagSel (jsLower selector)

/-- Evaluation of a compiled matcher on a node (the predicate the compiled
closure computes; the per-node memo caches are pure and do not change the
value). -/
def nodeMatches (m : Matcher) (n : Node) : Bool :=
  match m with
  | .idSel i => mapGet n.attrs "id" = some i
  | .clsSel c => (splitWsNonempty ((mapGet n.attrs "class").getD "")).contains c
  | .attrHas name => (mapGet n.attrs name).isSome
  | .attrEq name v => mapGet n.attrs name = some v
  | .tagSel t => jsLower n.tag = t

/-- `selector.trim().split(/\s+/)`: note that in JS the split of the empty
string is `[""]`, not `[]`. -/
def splitSelector (selector : String) : List String :=
  let t := trimL selector.data
  if t = [] then [""] else splitWsNonempty ⟨t⟩

theorem nodesWeight_append (a b : List Node) :
    nodesWeight (a ++ b) = nodesWeight a + nodesWeight b := by
  induction a with
  | nil => simp [nodesWeight]
  | cons c cs ih => simp [nodesWeight, ih]; omega

/-- Weight of a work stack, used for termination of the query loop. -/
def stackWeight (st : List (Node × Nat)) : Nat :=
  match st with
  | [] => 0
  | p :: rest => nodeWeight p.1 + stackWeight rest

theorem stackWeight_append (a b : List (Node × Nat)) :
    stackWeight (a ++ b) = stackWeight a + stackWeight b := by
  induction a with
  | nil => simp [stackWeight]
  | cons p rest ih => simp [stackWeight, ih]; omega

theorem stackWeight_reverse (a : List (Node × Nat)) :
    stackWeight a.reverse = stackWeight a := by
  induction a with
  | nil => rfl
  | cons p rest ih =>
    simp [List.reverse_cons, stackWeight_append, stackWeight, ih]
    omega

/-- The frames pushed while iterating over `node.children` at selector
index `i`: for each child, `(child, i+1)` when it matches a non-final
fragment, then always `(child, i)` — in push order. -/
def qsaPushes (m : Matcher) (i : Nat) (isLast : Bool) (cs : List Node) :
    List (Node × Nat) :=
  cs.flatMap fun c =>
    (if nodeMatches m c ∧ ¬ isLast then [(c, i + 1)] else []) ++ [(c, i)]

theorem stackWeight_qsaPushes (m : Matcher) (i : Nat) (isLast : Bool)
    (cs : List Node) :
    stackWeight (qsaPushes m i isLast cs) ≤ 2 * nodesWeight cs := by
  induction cs with
  | nil => simp [qsaPushes, stackWeight, nodesWeight]
  | cons c cs ih =>
    simp only [qsaPushes, List.flatMap_cons] at ih ⊢
    rw [stackWeight_append]
    simp only [nodesWeight]
    have : stackWeight
        ((if nodeMatches m c ∧ ¬ isLast then [(c, i + 1)] else []) ++ [(c, i)]) ≤
        2 * nodeWeight c := by
      split <;> simp [stackWeight] <;> omega
    omega

theorem nodeWeight_pos (n : Node) : 1 ≤ nodeWeight n := by
  rcases n with ⟨t, a, x, cs⟩
  simp [nodeWeight]

theorem nodeWeight_eq (n : Node) :
    nodeWeight n = 1 + 2 * nodesWeight n.children := by
  rcases n with ⟨t, a, x, cs⟩
  simp [nodeWeight, Node.children]

/-- The work-stack loop of `querySelectorAll` (head of the list = top of the
stack, i.e. the next frame popped).  Fuel-indexed: every iteration strictly
decreases `stackWeight`, so `stackWeight stack + 1` fuel always suffices
(`qsaLoopF_congr`). -/
def qsaLoopF : Nat → List Matcher → List (Node × Nat) → List Node → List Node
  | 0, _, _, acc => acc
  | fuel + 1, ms, stack, acc =>
    match stack with
    | [] => acc
    | (n, i) :: rest =>
      match ms[i]? with
      | none => qsaLoopF fuel ms rest acc
      | some m =>
        let isLast : Bool := i + 1 = ms.length
        let found := if isLast then n.children.filter (nodeMatches m) else []
        qsaLoopF fuel ms ((qsaPushes m i isLast n.children).reverse ++ rest)
          (acc ++ found)

/-- Weight of one loop step: the new stack is strictly lighter than the
old one. -/
theorem qsaStep_weight (m : Matcher) (i : Nat) (isLast : Bool) (n : Node)
    (rest : List (Node × Nat)) :
    stackWeight ((qsaPushes m i isLast n.children).reverse ++ rest) <
      stackWeight ((n, i) :: rest) := by
  rw [stackWeight_append, stackWeight_reverse]
  have h1 := stackWeight_qsaPushes m i isLast n.children
  have h2 := nodeWeight_eq n
  simp only [stackWeight]
  omega

/-- Fuel sufficiency for the query loop. -/
theorem qsaLoopF_congr :
    ∀ (fuel₁ fuel₂ : Nat) (ms : List Matcher) (stack : List (Node × Nat))
      (acc : List Node), stackWeight stack < fuel₁ → stackWeight stack < fuel₂ →
      qsaLoopF fuel₁ ms stack acc = qsaLoopF fuel₂ ms stack acc := by
  intro fuel₁
  induction fuel₁ with
  | zero => intro fuel₂ ms stack acc h1; omega
  | succ f₁ ih =>
    intro fuel₂ ms stack acc h1 h2
    match fuel₂ with
    | 0 => omega
    | f₂ + 1 =>
      match stack with
      | [] => simp [qsaLoopF]
      | (n, i) :: rest =>
        have hn := nodeWeight_pos n
        have hsw : stackWeight ((n, i) :: rest) = nodeWeight n + stackWeight rest := rfl
        rcases hmi : ms[i]? with _ | m
        · simp only [qsaLoopF, hmi]
          exact ih f₂ ms rest acc (by omega) (by omega)
        · have hw := qsaStep_weight m i (decide (i + 1 = ms.length)) n rest
          rw [hsw] at hw
          simp only [qsaLoopF, hmi]
          exact ih f₂ ms _ _ (by omega) (by omega)

/-- `querySelectorAll(root, selector)`. -/
def querySelectorAll (root : Node) (selector : String) : List Node :=
  let ms := (splitSelector selector).map compileMatcher
  qsaLoopF (nodeWeight root + 1) ms [(root, 0)] []

/-! ## Query facade (src/parser.ts) -/

/-- `ElementWrapper.text()` / `DocumentWrapper` text access:
`getText().trim()`. -/
def wrapperText (n : Node) : String := ⟨trimL (getText n).data⟩

/-- `ElementWrapper.html()`: `getInnerHTML()`. -/
def wrapperHtml (n : Node) : String := ⟨innerL n.children⟩

/-- `ElementWrapper.attr(name)`: `attrs.get(name) ?? null`. -/
def wrapperAttr (n : Node) (name : String) : Option String :=
  mapGet n.attrs name

/-- `select(selector)` of both wrappers delegates to `querySelectorAll` on
the wrapped node. -/
def wrapperSelect (n : Node) (selector : String) : List Node :=
  querySelectorAll n selector

/-- `selectOne(selector)`: first result or `null`. -/
def wrapperSelectOne (n : Node) (selector : String) : Option Node :=
  (querySelectorAll n selector).head?

/-! ## The extraction engine (src/extractor.ts) -/

/-- Dynamic values of an extraction result: `null`, strings, sequences and
nested result objects. -/
inductive Value : Type where
  | vnull
  | vstr (s : String)
  | vlist (vs : List Value)
  | vobj (fields : List (String × Value))

mutual

def Value.deq : (a b : Value) → Decidable (a = b)
  | .vnull, .vnull => isTrue rfl
  | .vnull, .vstr _ => isFalse (by intro h; cases h)
  | .vnull, .vlist _ => isFalse (by intro h; cases h)
  | .vnull, .vobj _ => isFalse (by intro h; cases h)
  | .vstr _, .vnull => isFalse (by intro h; cases h)
  | .vstr s, .vstr t =>
    match decEq s t with
    | isTrue h => isTrue (by rw [h])
    | isFalse h => isFalse (by intro he; cases he; exact h rfl)
  | .vstr _, .vlist _ => isFalse (by intro h; cases h)
  | .vstr _, .vobj _ => isFalse (by intro h; cases h)
  | .vlist _, .vnull => isFalse (by intro h; cases h)
  | .vlist _, .vstr _ => isFalse (by intro h; cases h)
  | .vlist a, .vlist b =>
    match Value.deqList a b with
    | isTrue h => isTrue (by rw [h])
    | isFalse h => isFalse (by intro he; cases he; exact h rfl)
  | .vlist _, .vobj _ => isFalse (by intro h; cases h)
  | .vobj _, .vnull => isFalse (by intro h; cases h)
  | .vobj _, .vstr _ => isFalse (by intro h; cases h)
  | .vobj _, .vlist _ => isFalse (by intro h; cases h)
  | .vobj a, .vobj b =>
    match Value.deqObj a b with
    | isTrue h => isTrue (by rw [h])
    | isFalse h => isFalse (by intro he; cases he; exact h rfl)

def Value.deqList : (a b : List Value) → Decidable (a = b)
  | [], [] => isTrue rfl
  | [], _ :: _ => isFalse (by intro h; cases h)
  | _ :: _, [] => isFalse (by intro h; cases h)
  | x :: xs, y :: ys =>
    match Value.deq x y with
    | isFalse h => isFalse (by intro he; cases he; exact h rfl)
    | isTrue h₁ =>
      match Value.deqList xs ys with
      | isFalse h => isFalse (by intro he; cases he; exact h rfl)
      | isTrue h₂ => isTrue (by rw [h₁, h₂])

def Value.deqObj : (a b : List (String × Value)) → Decidable (a = b)
  | [], [] => isTrue rfl
  | [], _ :: _ => isFalse (by intro h; cases h)
  | _ :: _, [] => isFalse (by intro h; cases h)
  | (k, x) :: xs, (k', y) :: ys =>
    match decEq k k' with
    | isFalse h => isFalse (by intro he; cases he; exact h rfl)
    | isTrue h₀ =>
      match Value.deq x y with
      | isFalse h => isFalse (by intro he; cases he; exact h rfl)
      | isTrue h₁ =>
        match Value.deqObj xs ys with
        | isFalse h => isFalse (by intro he; cases he; exact h rfl)
        | isTrue h₂ => isTrue (by rw [h₀, h₁, h₂])

end

instance : DecidableEq Value := Value.deq

/-- JS `v != null` (loose inequality against `null`/`undefined`). -/
def Value.isNotNull : Value → Bool
  | .vnull => false
  | _ => true

/-- A field descriptor: the closed `single` / `multiple` / `nested` variant
of `FieldSchema`.  Transforms are functions that either return a value or
throw (`Except.error` carries the thrown message). -/
inductive FieldSchema : Type where
  | single (selector : String) (attr : Option String) (dflt : Option Value)
      (transform : Option (Value → Except String Value))
  | multiple (selector : String) (attr : Option String)
      (dflt : Option (List Value))
      (transform : Option (List Value → Except String (List Value)))
      (limit : Option Int)
  | nested (selector : String) (fields : List (String × FieldSchema))
      (multiple : Bool) (limit : Option Int)

/-- `extractValue(el, attr)`: `"text"` / `"html"` / a named attribute. -/
def extractValue (el : Node) (attr : String) : Value :=
  if attr = "text" then .vstr (wrapperText el)
  else if attr = "html" then .vstr (wrapperHtml el)
  else
    match wrapperAttr el attr with
    | some v => .vstr v
    | none => .vnull

/-- `safeTransform`: a thrown transform error is re-raised as
`Transform failed: <message>`. -/
def safeTransform {α : Type} (fn : α → Except String α) (val : α) :
    Except String α :=
  match fn val with
  | .ok r => .ok r
  | .error e => .error ("Transform failed: " ++ e)

/-- The `f.limit ? els.slice(0, f.limit) : els` truncation shared by the two
`multiple` extractors; a missing (`undefined`) and a zero limit are both
falsy. -/
def applyLimit {α : Type} (limit : Option Int) (els : List α) : List α :=
  match limit with
  | none => els
  | some l => if l = 0 then els else jsSlice els l

/-- The raw (pre-transform) value of `extractSingleSimple`:
found-or-default. -/
def rawSingle (ctx : Node) (selector : String) (attr : Option String)
    (dflt : Option Value) : Value :=
  match wrapperSelectOne ctx selector with
  | some el => extractValue el (attr.getD "text")
  | none => dflt.getD .vnull

/-- The raw (pre-transform) sequence of `extractMultipleSimple`. -/
def rawMultiple (ctx : Node) (selector : String) (attr : Option String)
    (dflt : Option (List Value)) (limit : Option Int) : List Value :=
  let els := wrapperSelect ctx selector
  let limited := applyLimit limit els
  if limited.length > 0 then
    (limited.map (fun el => extractValue el (attr.getD "text"))).filter
      Value.isNotNull
  else
    dflt.getD []

mutual

/-- `extractField(field, ctx)`: dispatch on the three field shapes. -/
def extractField (f : FieldSchema) (ctx : Node) : Except String Value :=
  match f with
  | .single selector attr dflt transform =>
    let raw := rawSingle ctx selector attr dflt
    (match transform with
     | some t => safeTransform t raw
     | none => .ok raw)
  | .multiple selector attr dflt transform limit =>
    let raw := rawMultiple ctx selector attr dflt limit
    (match transform with
     | some t => (safeTransform t raw).map .vlist
     | none => .ok (.vlist raw))
  | .nested selector fields multiple limit =>
    if multiple then
      match extractNestedList fields (applyLimit limit (wrapperSelect ctx selector)) with
      | .ok vs => .ok (.vlist vs)
      | .error e => .error e
    else
      match wrapperSelectOne ctx selector with
      | some el =>
        (match buildNestedObject fields el with
         | .ok obj => .ok obj
         | .error e => .error e)
      | none => .ok .vnull

/-- `buildNestedObject(fields, el)`: recursive extraction of a sub-schema;
sub-field errors propagate untagged. -/
def buildNestedObject (fields : List (String × FieldSchema)) (el : Node) :
    Except String Value :=
  match buildNestedLoop fields el with
  | .ok entries => .ok (.vobj entries)
  | .error e => .error e

def buildNestedLoop (fields : List (String × FieldSchema)) (el : Node) :
    Except String (List (String × Value)) :=
  match fields with
  | [] => .ok []
  | (k, sub) :: rest =>
    match extractField sub el with
    | .error e => .error e
    | .ok v =>
      match buildNestedLoop rest el with
      | .error e => .error e
      | .ok vs => .ok ((k, v) :: vs)

/-- `limited.map((el) => this.buildNestedObject(f.fields, el))` with error
propagation. -/
def extractNestedList (fields : List (String × FieldSchema))
    (els : List Node) : Except String (List Value) :=
  match els with
  | [] => .ok []
  | el :: rest =>
    match buildNestedObject fields el with
    | .error e => .error e
    | .ok v =>
      match extractNestedList fields rest with
      | .error e => .error e
      | .ok vs => .ok (v :: vs)

end

/-- `Extractor.extract(schema)`: each field in schema order; the first field
error is re-raised tagged `Field "<name>": <cause>` and aborts the whole
extraction. -/
def extract (ctx : Node) (schema : List (String × FieldSchema)) :
    Except String (List (String × Value)) :=
  match schema with
  | [] => .ok []
  | (k, f) :: rest =>
    match extractField f ctx with
    | .error msg => .error ("Field \"" ++ k ++ "\": " ++ msg)
    | .ok v =>
      match extract ctx rest with
      | .error e => .error e
      | .ok vs => .ok ((k, v) :: vs)

/-! ## Structural lemmas about descendants -/

theorem descendants_eq (n : Node) : descendants n = descList n.children := by
  rcases n with ⟨t, a, x, cs⟩
  simp [descendants, Node.children]

theorem mem_descList_self {c : Node} {cs : List Node} (h : c ∈ cs) :
    c ∈ descList cs := by
  induction cs with
  | nil => cases h
  | cons d cs ih =>
    rcases List.mem_cons.mp h with rfl | h
    · simp [descList]
    · simp only [descList, List.mem_cons, List.mem_append]
      exact Or.inr (ih h)

theorem desc_child {n c : Node} (h : c ∈ n.children) : c ∈ descendants n := by
  rw [descendants_eq]
  exact mem_descList_self h

theorem descList_weight : ∀ (W : Nat) (cs : List Node), nodesWeight cs ≤ W →
    ∀ b ∈ descList cs, nodeWeight b ≤ nodesWeight cs := by
  intro W
  induction W with
  | zero =>
    intro cs hcs b hb
    cases cs with
    | nil => simp [descList] at hb
    | cons c cs' =>
      have := nodeWeight_pos c
      simp [nodesWeight] at hcs
      omega
  | succ W ih =>
    intro cs
    induction cs with
    | nil => intro hcs b hb; simp [descList] at hb
    | cons c cs' ihl =>
      intro hcs b hb
      simp only [descList, List.mem_cons, List.mem_append] at hb
      have hcw := nodeWeight_eq c
      have hsum : nodesWeight (c :: cs') = nodeWeight c + nodesWeight cs' := rfl
      rcases hb with (rfl | hb) | hb
      · simp only [nodesWeight]; omega
      · rw [descendants_eq] at hb
        have hS : nodesWeight c.children ≤ W := by omega
        have := ih c.children hS b hb
        simp only [nodesWeight]
        omega
      · have := ihl (by omega) b hb
        simp only [nodesWeight]
        omega

theorem desc_weight {a b : Node} (h : b ∈ descendants a) :
    nodeWeight b < nodeWeight a := by
  rw [descendants_eq] at h
  have := descList_weight (nodesWeight a.children) a.children le_rfl b h
  have := nodeWeight_eq a
  omega

theorem desc_irrefl (a : Node) : a ∉ descendants a := by
  intro h
  exact absurd (desc_weight h) (lt_irrefl _)

theorem descList_trans : ∀ (W : Nat) (cs : List Node), nodesWeight cs ≤ W →
    ∀ b ∈ descList cs, ∀ x ∈ descendants b, x ∈ descList cs := by
  intro W
  induction W with
  | zero =>
    intro cs hcs b hb
    cases cs with
    | nil => simp [descList] at hb
    | cons c cs' =>
      have := nodeWeight_pos c
      simp [nodesWeight] at hcs
      omega
  | succ W ih =>
    intro cs
    induction cs with
    | nil => intro hcs b hb; simp [descList] at hb
    | cons c cs' ihl =>
      intro hcs b hb x hx
      simp only [descList, List.mem_cons, List.mem_append] at hb ⊢
      have hcw := nodeWeight_eq c
      have hsum : nodesWeight (c :: cs') = nodeWeight c + nodesWeight cs' := rfl
      rcases hb with (rfl | hb) | hb
      · exact Or.inl (Or.inr hx)
      · rw [descendants_eq] at hb
        have hS : nodesWeight c.children ≤ W := by omega
        have hd := ih c.children hS b hb x hx
        rw [← descendants_eq] at hd
        exact Or.inl (Or.inr hd)
      · exact Or.inr (ihl (by omega) b hb x hx)

theorem desc_trans {a b x : Node} (hb : b ∈ descendants a)
    (hx : x ∈ descendants b) : x ∈ descendants a := by
  rw [descendants_eq] at hb ⊢
  exact descList_trans (nodesWeight a.children) a.children le_rfl b hb x hx

/-- A node reachable as a child of a root-or-descendant frame node is a
proper descendant of the root. -/
theorem desc_step {root n c : Node} (hn : n = root ∨ n ∈ descendants root)
    (hc : c ∈ n.children) : c ∈ descendants root := by
  rcases hn with rfl | hn
  · exact desc_child hc
  · exact desc_trans hn (desc_child hc)

/-! ## Invariants of the query loop -/

theorem qsaPushes_mem {m : Matcher} {i : Nat} {isLast : Bool}
    {cs : List Node} {p : Node × Nat} (h : p ∈ qsaPushes m i isLast cs) :
    p.1 ∈ cs := by
  simp only [qsaPushes, List.mem_flatMap] at h
  rcases h with ⟨c, hc, hp⟩
  rcases List.mem_append.mp hp with hp | hp
  · split at hp
    · rcases List.mem_singleton.mp hp with rfl; exact hc
    · cases hp
  · rcases List.mem_singleton.mp hp with rfl; exact hc

/-- Every node the work-stack loop records is a proper descendant of the
root and satisfies the final compiled fragment. -/
theorem qsaLoopF_mem (root : Node) (ms : List Matcher) :
    ∀ (fuel : Nat) (stack : List (Node × Nat)) (acc : List Node),
    (∀ p ∈ stack, p.1 = root ∨ p.1 ∈ descendants root) →
    (∀ r ∈ acc, r ∈ descendants root ∧
      ∃ m, ms.getLast? = some m ∧ nodeMatches m r = true) →
    ∀ r ∈ qsaLoopF fuel ms stack acc,
      r ∈ descendants root ∧
        ∃ m, ms.getLast? = some m ∧ nodeMatches m r = true := by
  intro fuel
  induction fuel with
  | zero => intro stack acc hst hacc r hr; exact hacc r hr
  | succ fuel ih =>
    intro stack acc hst hacc r hr
    match stack with
    | [] => exact hacc r hr
    | (n, i) :: rest =>
      rcases hmi : ms[i]? with _ | m
      · simp only [qsaLoopF, hmi] at hr
        exact ih rest acc (fun p hp => hst p (List.mem_cons_of_mem _ hp)) hacc r hr
      · simp only [qsaLoopF, hmi] at hr
        refine ih _ _ ?_ ?_ r hr
        · intro p hp
          rcases List.mem_append.mp hp with hp | hp
          · right
            have hmem := qsaPushes_mem (List.mem_reverse.mp hp)
            exact desc_step (hst (n, i) (List.mem_cons_self _ _)) hmem
          · exact hst p (List.mem_cons_of_mem _ hp)
        · intro x hx
          rcases List.mem_append.mp hx with hx | hx
          · exact hacc x hx
          · split at hx
            · rename_i hLast
              rcases List.mem_filter.mp hx with ⟨hxc, hxm⟩
              constructor
              · exact desc_step (hst (n, i) (List.mem_cons_self _ _)) hxc
              · refine ⟨m, ?_, hxm⟩
                rw [List.getLast?_eq_getElem?]
                have : i + 1 = ms.length := by
                  have := of_decide_eq_true hLast
                  exact this
                rw [← hmi]
                congr 1
                omega
            · cases hx

/-- Specialization to `querySelectorAll`. -/
theorem querySelectorAll_mem {root : Node} {selector : String} {r : Node}
    (hr : r ∈ querySelectorAll root selector) :
    r ∈ descendants root ∧
      ∃ m, ((splitSelector selector).map compileMatcher).getLast? = some m ∧
        nodeMatches m r = true := by
  refine qsaLoopF_mem root _ _ [(root, 0)] [] ?_ ?_ r hr
  · intro p hp
    rcases List.mem_singleton.mp hp with rfl
    exact Or.inl rfl
  · intro x hx
    cases hx

/-! ## Example documents used by counterexamples and witnesses -/

/-- `div` nested three deep (`<div n="1"><div n="2"><div n="3">`). -/
def exDeep3 : Node := .mk "div" [("n", "3")] "" []

def exDeep2 : Node := .mk "div" [("n", "2")] "" [exDeep3]

def exDeep1 : Node := .mk "div" [("n", "1")] "" [exDeep2]

def exDeepRoot : Node := .mk "document" [] "" [exDeep1]

/-- Two sibling `div`s, the first with a `div` child. -/
def exX : Node := .mk "div" [("n", "x")] "" []

def exA : Node := .mk "div" [("n", "a")] "" [exX]

def exB : Node := .mk "div" [("n", "b")] "" []

def exWideRoot : Node := .mk "document" [] "" [exA, exB]

/-- The parse of `hi<p>there</p>` (a document with text-node
descendants). -/
def exTextDoc : Node := buildTree (tokenizeStr "hi<p>there</p>")

/-- The parse of `<p>x</p>`. -/
def exPDoc : Node := buildTree (tokenizeStr "<p>x</p>")

/-! ## Claims about the query engine -/

theorem jsLower_eq_empty {s : String} (h : jsLower s = "") : s = "" := by
  have hd : (jsLower s).data = [] := by rw [h]
  simp only [jsLower, jsLowerL] at hd
  rcases s with ⟨l⟩
  simp at hd
  simp [hd]

/-- C1: every element of `querySelectorAll D S` is a proper descendant of
`D`, and re-running on the unchanged tree returns an identical sequence.
(The subsequence/multiplicity part of the original claim is refuted by
`C1_counterexample`: the double-push traversal can record the same node
twice.) -/
theorem C1_descendants_idempotent (D : Node) (S : String) :
    (∀ r ∈ querySelectorAll D S, r ∈ descendants D) ∧
      querySelectorAll D S = querySelectorAll D S :=
  ⟨fun _ hr => (querySelectorAll_mem hr).1, rfl⟩

/-- C1, refuted part at a concrete input: on `document > div > div > div`
with selector `div div`, the innermost `div` is recorded twice but occurs
only once among the descendants, so the result is not a subsequence of the
descendants. -/
theorem C1_counterexample :
    ¬ ((querySelectorAll exDeepRoot "div div").count exDeep3 ≤
        (descendants exDeepRoot).count exDeep3) := by decide

theorem C1_witness :
    exA ∈ descendants exWideRoot ∧
      querySelectorAll exWideRoot "div" = querySelectorAll exWideRoot "div" :=
  ⟨(C1_descendants_idempotent exWideRoot "div").1 exA (by decide),
    (C1_descendants_idempotent exWideRoot "div").2⟩

/-- C2: every result of `querySelectorAll R S` is a proper descendant of
`R`, and never `R` itself.  (The document-order part of the original claim
is refuted by `C2_counterexample`: the work-stack traversal emits deeper
matches after later siblings.) -/
theorem C2_proper_descendants (R : Node) (S : String) :
    ∀ r ∈ querySelectorAll R S, r ∈ descendants R ∧ r ≠ R := by
  intro r hr
  have hd := (querySelectorAll_mem hr).1
  refine ⟨hd, ?_⟩
  intro he
  subst he
  exact desc_irrefl r hd

/-- C2, refuted part at a concrete input: with `document > div(a) > div(x)`
and a sibling `div(b)`, selector `div` returns `[a, b, x]` while pre-order
document order of the descendants is `[a, x, b]` — the result sequence is
not in document order. -/
theorem C2_counterexample :
    querySelectorAll exWideRoot "div" = [exA, exB, exX] ∧
      descendants exWideRoot = [exA, exX, exB] ∧
      ¬ List.Sublist (querySelectorAll exWideRoot "div")
          (descendants exWideRoot) := by
  refine ⟨by decide, by decide, ?_⟩
  decide

theorem C2_witness : exX ∈ descendants exWideRoot ∧ exX ≠ exWideRoot :=
  C2_proper_descendants exWideRoot "div" exX (by decide)

/-- C3: a selector whose compiled fragments match no descendant yields the
empty result (and `querySelectorAll` is a total function, never an error);
but the empty/all-whitespace selector does **not** yield the empty result
in general: it compiles to a single empty-tag matcher, which matches
exactly the nodes with empty (lowercased) tag — the text leaves
(`C3_counterexample`). -/
theorem C3_empty_and_no_match :
    (∀ (D r : Node), r ∈ querySelectorAll D "" → r.tag = "") ∧
      (∀ (D : Node) (S : String),
        (∀ d ∈ descendants D, ∀ m ∈ (splitSelector S).map compileMatcher,
          nodeMatches m d = false) →
        querySelectorAll D S = []) := by
  constructor
  · intro D r hr
    rcases querySelectorAll_mem hr with ⟨-, m, hm, hmatch⟩
    have hms : (splitSelector "").map compileMatcher = [.tagSel ""] := rfl
    rw [hms] at hm
    simp at hm
    subst hm
    simp only [nodeMatches, decide_eq_true_eq] at hmatch
    exact jsLower_eq_empty hmatch
  · intro D S h
    rw [List.eq_nil_iff_forall_not_mem]
    intro r hr
    rcases querySelectorAll_mem hr with ⟨hd, m, hm, hmatch⟩
    have hmem : m ∈ (splitSelector S).map compileMatcher :=
      List.mem_of_mem_getLast? hm
    have := h r hd m hmem
    rw [this] at hmatch
    cases hmatch

theorem C3_witness : querySelectorAll exPDoc "zzz" = [] :=
  C3_empty_and_no_match.2 exPDoc "zzz" (by decide)

/-- C3, refuted part at a concrete input: on the parse of
`hi<p>there</p>`, the empty selector returns the two text leaves, not the
empty sequence. -/
theorem C3_counterexample :
    querySelectorAll exTextDoc "" =
      [.mk "" [] "hi" [], .mk "" [] "there" []] ∧
      querySelectorAll exTextDoc "" ≠ [] := by
  refine ⟨by decide, by decide⟩

/-! ## Claims about the extraction engine -/

instance : DecidableEq (Except String Value) := fun a b =>
  match a, b with
  | .ok x, .ok y =>
    match Value.deq x y with
    | isTrue h => isTrue (by rw [h])
    | isFalse h => isFalse (by intro he; cases he; exact h rfl)
  | .error x, .error y =>
    match decEq x y with
    | isTrue h => isTrue (by rw [h])
    | isFalse h => isFalse (by intro he; cases he; exact h rfl)
  | .ok _, .error _ => isFalse (by intro h; cases h)
  | .error _, .ok _ => isFalse (by intro h; cases h)

/-- Modelled from the spec's description of the `multiple, non-nested`
extraction pipeline, amended so that the default is substituted exactly
when the (possibly limited) match list is empty — not when the sequence
left after dropping nulls is empty. -/
def specMultipleRaw (ctx : Node) (selector : String) (attr : Option String)
    (dflt : Option (List Value)) (limit : Option Int) : List Value :=
  let limited := applyLimit limit (wrapperSelect ctx selector)
  if limited = [] then dflt.getD []
  else
    (limited.map (fun el => extractValue el (attr.getD "text"))).filter
      Value.isNotNull

/-- C4 (amended): a non-nested `multiple` field selects all matches,
truncates to the first `limit` matches when `limit` is non-zero (preserving
order), reads each match per `attr` and drops nulls; the configured default
sequence is substituted only when the (limited) match list itself is empty.
When matches exist but every value is null the result is the empty
sequence, not the default (`C4_counterexample`). -/
theorem C4_multiple_simple (ctx : Node) (selector : String)
    (attr : Option String) (dflt : Option (List Value)) (limit : Option Int) :
    rawMultiple ctx selector attr dflt limit =
      specMultipleRaw ctx selector attr dflt limit ∧
    extractField (.multiple selector attr dflt none limit) ctx =
      .ok (.vlist (specMultipleRaw ctx selector attr dflt limit)) := by
  have h : rawMultiple ctx selector attr dflt limit =
      specMultipleRaw ctx selector attr dflt limit := by
    unfold rawMultiple specMultipleRaw
    rcases hl : applyLimit limit (wrapperSelect ctx selector) with _ | ⟨e, es⟩ <;>
      simp [hl]
  exact ⟨h, by rw [extractField]; simp [h]⟩

/-- The parse of `<a>x</a>`: one `a` element with no `href` attribute. -/
def exADoc : Node := buildTree (tokenizeStr "<a>x</a>")

/-- C4, refuted part at a concrete input: a `multiple` field on `a` with
`attr: "href"` and default `["D"]` over `<a>x</a>` finds one match whose
value is null; after dropping nulls the sequence is empty, yet the result
is `[]`, not the default `["D"]`. -/
theorem C4_counterexample :
    extractField (.multiple "a" (some "href") (some [.vstr "D"]) none none)
        exADoc = .ok (.vlist []) ∧
      (Except.ok (Value.vlist []) : Except String Value) ≠
        .ok (.vlist [.vstr "D"]) := by
  constructor
  · rw [extractField]
    decide
  · decide

/-- C9: a `limit` of `0` is falsy in the `f.limit ? els.slice(0, f.limit) :
els` truncation, so it applies no truncation at all — for both the
non-nested and the nested `multiple` extractors the result equals the
unlimited one (and in particular is not the empty sequence). -/
theorem C9_limit_zero (ctx : Node) (selector : String) (attr : Option String)
    (dflt : Option (List Value))
    (transform : Option (List Value → Except String (List Value)))
    (fields : List (String × FieldSchema)) (els : List Node) :
    applyLimit (some 0) els = els ∧
    extractField (.multiple selector attr dflt transform (some 0)) ctx =
      extractField (.multiple selector attr dflt transform none) ctx ∧
    extractField (.nested selector fields true (some 0)) ctx =
      extractField (.nested selector fields true none) ctx := by
  have hl : ∀ (l : List Node), applyLimit (some 0) l = l := by
    intro l; simp [applyLimit]
  refine ⟨hl els, ?_, ?_⟩
  · simp only [extractField.eq_def]
    simp [rawMultiple, hl, applyLimit]
  · simp only [extractField.eq_def]
    simp [hl, applyLimit]

/-- C5: when the transform of any schema field carrying one — a `single`
field or a `multiple` field, the only shapes whose schema admits a
transform — throws with message `C` (and every field before it extracts
without error), the whole extraction aborts with the error
`Field "<name>": Transform failed: <C>` — carrying both the field's name
and the underlying message, with no partial result.  Fields without a
transform never raise: a selector non-match resolves to the default /
null / empty sequence. -/
theorem C5_transform_error (ctx : Node) (pre rest : List (String × FieldSchema))
    (k : String) (f : FieldSchema) (C : String)
    (hpre : ∀ p ∈ pre, ∃ v, extractField p.2 ctx = Except.ok v)
    (hthrow :
      (∃ selector attr dflt t, f = .single selector attr dflt (some t) ∧
        t (rawSingle ctx selector attr dflt) = .error C) ∨
      (∃ selector attr dflt t lim,
        f = .multiple selector attr dflt (some t) lim ∧
        t (rawMultiple ctx selector attr dflt lim) = .error C)) :
    extract ctx (pre ++ (k, f) :: rest) =
      .error ("Field \"" ++ k ++ "\": " ++ ("Transform failed: " ++ C)) ∧
    (∀ (sel' : String) (attr' : Option String) (dflt' : Option Value),
      extractField (.single sel' attr' dflt' none) ctx =
        .ok (rawSingle ctx sel' attr' dflt')) ∧
    (∀ (sel' : String) (attr' : Option String) (dflt' : Option (List Value))
      (lim : Option Int),
      extractField (.multiple sel' attr' dflt' none lim) ctx =
        .ok (.vlist (rawMultiple ctx sel' attr' dflt' lim))) ∧
    (∀ (sel' : String) (fields : List (String × FieldSchema)) (lim : Option Int),
      wrapperSelectOne ctx sel' = none →
        extractField (.nested sel' fields false lim) ctx = .ok .vnull) ∧
    (∀ (sel' : String) (fields : List (String × FieldSchema)) (lim : Option Int),
      wrapperSelect ctx sel' = [] →
        extractField (.nested sel' fields true lim) ctx = .ok (.vlist [])) := by
  refine ⟨?_, ?_, ?_, ?_, ?_⟩
  · induction pre with
    | nil =>
      simp only [List.nil_append, extract]
      have hf : extractField f ctx = .error ("Transform failed: " ++ C) := by
        rcases hthrow with ⟨sel2, attr2, dflt2, t2, rfl, ht2⟩ |
          ⟨sel2, attr2, dflt2, t2, lim2, rfl, ht2⟩
        · rw [extractField]
          simp [safeTransform, ht2]
        · rw [extractField]
          simp [safeTransform, ht2, Except.map]
      rw [hf]
    | cons p pre' ih =>
      rcases hpre p (List.mem_cons_self _ _) with ⟨v, hv⟩
      have ih' := ih (fun q hq => hpre q (List.mem_cons_of_mem _ hq))
      rcases p with ⟨k', f'⟩
      simp only [List.cons_append, extract, hv, List.append_eq, ih']
  · intro sel' attr' dflt'
    rw [extractField]
  · intro sel' attr' dflt' lim
    rw [extractField]
  · intro sel' fields lim hnone
    rw [extractField]
    simp [hnone]
  · intro sel' fields lim hempty
    rw [extractField]
    simp [hempty, applyLimit]
    cases lim with
    | none => simp [extractNestedList]
    | some l => simp [extractNestedList, jsSlice]

theorem C5_witness :
    extract exPDoc
        [("a", .single "p" none none (some (fun _ => .error "boom")))] =
        .error "Field \"a\": Transform failed: boom" ∧
      extract exPDoc
          [("m", .multiple "p" none none
            (some (fun _ => .error "bad")) none)] =
        .error "Field \"m\": Transform failed: bad" :=
  ⟨(C5_transform_error exPDoc [] [] "a" _ "boom" (by simp)
      (Or.inl ⟨"p", none, none, _, rfl, rfl⟩)).1,
    (C5_transform_error exPDoc [] [] "m" _ "bad" (by simp)
      (Or.inr ⟨"p", none, none, _, none, rfl, rfl⟩)).1⟩

/-! ## Claims about the tree builder -/

/-- C7: a `Close(tag)` token pops the open-element stack iff the stack
holds more than the synthetic root and the top frame's tag equals `tag`
(the pop realizes the top frame as a child of the frame below); any
mismatched or extraneous close leaves the stack — and hence the tree built
from any surrounding token stream — unchanged; elements still unclosed at
end of input remain attached to the tree. -/
theorem C7_close_token (st : List Frame) (tag : String)
    (top next : Frame) (rest : List Frame) (pre post : List Token)
    (hmis : st.length ≤ 1 ∨ ∀ f ∈ st.head?, f.tag ≠ tag)
    (htop : top.tag = tag)
    (hpre : (pre.foldl buildStep [rootFrame]).length ≤ 1 ∨
      ∀ f ∈ (pre.foldl buildStep [rootFrame]).head?, f.tag ≠ tag) :
    buildStep st (.closeTag tag) = st ∧
    buildStep (top :: next :: rest) (.closeTag tag) =
      addChild top.toNode (next :: rest) ∧
    buildTree (pre ++ .closeTag tag :: post) = buildTree (pre ++ post) ∧
    buildTree [.openTag "div" [], .text "x"] =
      .mk "document" [] "" [.mk "div" [] "" [.mk "" [] "x" []]] := by
  have hstep : ∀ (st' : List Frame),
      (st'.length ≤ 1 ∨ ∀ f ∈ st'.head?, f.tag ≠ tag) →
      buildStep st' (.closeTag tag) = st' := by
    intro st' h
    match st' with
    | [] => rfl
    | [f] => rfl
    | f1 :: f2 :: r =>
      rcases h with h | h
      · simp at h
      · have := h f1 (by simp)
        simp only [buildStep]
        rw [if_neg this]
  refine ⟨hstep st hmis, ?_, ?_, by decide⟩
  · simp only [buildStep]
    rw [if_pos htop]
  · unfold buildTree
    rw [List.foldl_append, List.foldl_append]
    simp only [List.foldl_cons]
    rw [hstep _ hpre]

theorem C7_witness :
    buildStep [rootFrame] (.closeTag "b") = [rootFrame] ∧
    buildTree [Token.openTag "div" [], .closeTag "b", .text "x"] =
      buildTree [Token.openTag "div" [], .text "x"] := by
  have h := C7_close_token [rootFrame] "b" ⟨"b", [], []⟩ rootFrame []
    [Token.openTag "div" []] [Token.text "x"]
    (by decide) rfl (by decide)
  exact ⟨h.1, h.2.2.1⟩

/-! ## Claim C10: attribute lookup is case-sensitive over lowercased keys -/

theorem char_ofNat_toNat {c : Char} (h : 65 ≤ c.toNat ∧ c.toNat ≤ 90) :
    (Char.ofNat (c.toNat + 32)).toNat = c.toNat + 32 := by
  have hv : (c.toNat + 32).isValidChar := by left; omega
  rw [Char.ofNat, dif_pos hv]
  show ({ toBitVec := _ } : UInt32).toNat = _
  rw [UInt32.toNat]
  simp [BitVec.toNat_ofNatLt]

theorem jsLowerChar_not_upper (c : Char) :
    isUpperAscii (jsLowerChar c) = false := by
  unfold jsLowerChar
  split
  · rename_i h
    have ht := char_ofNat_toNat h
    simp only [isUpperAscii, ht]
    simp
    omega
  · rename_i h
    simp only [isUpperAscii]
    simpa using h

/-- No character of a string is an ASCII uppercase letter. -/
abbrev keyNoUpper (s : String) : Prop := ∀ c ∈ s.data, isUpperAscii c = false

/-- All keys of an attribute map avoid ASCII uppercase letters. -/
abbrev keysNoUpper (m : List (String × String)) : Prop :=
  ∀ kv ∈ m, keyNoUpper kv.1

theorem keyNoUpper_jsLower (l : List Char) :
    keyNoUpper (⟨jsLowerL l⟩ : String) := by
  intro c hc
  simp only [jsLowerL, List.mem_map] at hc
  rcases hc with ⟨c', -, rfl⟩
  exact jsLowerChar_not_upper c'

theorem mapSet_keysNoUpper {m : List (String × String)} {k v : String}
    (hm : keysNoUpper m) (hk : keyNoUpper k) : keysNoUpper (mapSet m k v) := by
  induction m with
  | nil => intro kv hkv; rcases List.mem_singleton.mp hkv with rfl; exact hk
  | cons p m' ih =>
    rcases p with ⟨k', v'⟩
    simp only [mapSet]
    split
    · intro kv hkv
      rcases List.mem_cons.mp hkv with rfl | hkv
      · exact hm (k', v') (List.mem_cons_self _ _)
      · exact hm kv (List.mem_cons_of_mem _ hkv)
    · intro kv hkv
      rcases List.mem_cons.mp hkv with rfl | hkv
      · exact hm (k', v') (List.mem_cons_self _ _)
      · exact ih (fun q hq => hm q (List.mem_cons_of_mem _ hq)) kv hkv

theorem parseAttrsLoopF_keysNoUpper :
    ∀ (fuel : Nat) (s : List Char) (acc : List (String × String)),
      keysNoUpper acc → keysNoUpper (parseAttrsLoopF fuel s acc) := by
  intro fuel
  induction fuel with
  | zero => intro s acc h; exact h
  | succ f ih =>
    intro s acc h
    match s with
    | [] => exact h
    | c :: s' =>
      simp only [parseAttrsLoopF]
      split
      · exact ih s' acc h
      · split
        · exact ih _ _ (mapSet_keysNoUpper h (keyNoUpper_jsLower _))
        · exact ih _ _ (mapSet_keysNoUpper h (keyNoUpper_jsLower _))

theorem parseAttrs_keysNoUpper (s : List Char) : keysNoUpper (parseAttrs s) :=
  parseAttrsLoopF_keysNoUpper _ s [] (fun _ h => nomatch h)

/-- Property of a token: any attribute map it carries has only
non-uppercase keys. -/
def tokenAttrsOk : Token → Prop
  | .openTag _ a => keysNoUpper a
  | .selfClose _ a => keysNoUpper a
  | _ => True

theorem tagStep_tokensOk (t : List Char) :
    ∀ tok ∈ (tagStep t).1, tokenAttrsOk tok := by
  intro tok htok
  unfold tagStep at htok
  rcases hg : idxOf '>' (t.drop 1) with _ | g <;> rw [hg] at htok
  · cases htok
  · dsimp only [] at htok
    split at htok
    · split at htok <;> cases htok
    · split at htok
      · cases htok
      · split at htok
        · split at htok
          · cases htok
          · rcases List.mem_singleton.mp htok with rfl
            trivial
        · split at htok
          · cases htok
          · split at htok
            · split at htok <;> cases htok
            · rcases List.mem_singleton.mp htok with rfl
              split
              · exact parseAttrs_keysNoUpper _
              · exact parseAttrs_keysNoUpper _

theorem tokenizeF_tokensOk :
    ∀ (fuel : Nat) (s : List Char), ∀ tok ∈ tokenizeF fuel s, tokenAttrsOk tok := by
  intro fuel
  induction fuel with
  | zero => intro s tok htok; cases htok
  | succ f ih =>
    intro s tok htok
    simp only [tokenizeF] at htok
    rcases hlt : idxOf '<' s with _ | lt <;> rw [hlt] at htok <;>
      dsimp only [] at htok
    · split at htok
      · cases htok
      · rcases List.mem_singleton.mp htok with rfl; trivial
    · rcases hts : tagStep (s.drop lt) with ⟨ts, os⟩
      rw [hts] at htok
      have hstep : ∀ x ∈ ts, tokenAttrsOk x := by
        intro x hx
        have h2 := tagStep_tokensOk (s.drop lt) x
        rw [hts] at h2
        exact h2 hx
      rcases os with _ | s'
      · dsimp only [] at htok
        rcases List.mem_append.mp htok with h | h
        · split at h
          · cases h
          · rcases List.mem_singleton.mp h with rfl; trivial
        · exact hstep tok h
      · dsimp only [] at htok
        rcases List.mem_append.mp htok with h | h
        · rcases List.mem_append.mp h with h | h
          · split at h
            · cases h
            · rcases List.mem_singleton.mp h with rfl; trivial
          · exact hstep tok h
        · exact ih s' tok h

/-- All attribute maps in a subtree have non-uppercase keys. -/
abbrev nodeAttrsOk (n : Node) : Prop :=
  keysNoUpper n.attrs ∧ ∀ d ∈ descendants n, keysNoUpper d.attrs

/-- Build-stack frame invariant. -/
abbrev frameOk (f : Frame) : Prop :=
  keysNoUpper f.attrs ∧ ∀ c ∈ f.children, nodeAttrsOk c

theorem descList_mem_decomp {d : Node} :
    ∀ {cs : List Node}, d ∈ descList cs →
      ∃ c ∈ cs, d = c ∨ d ∈ descendants c := by
  intro cs
  induction cs with
  | nil => intro h; cases h
  | cons c cs' ih =>
    intro h
    simp only [descList, List.mem_cons, List.mem_append] at h
    rcases h with (rfl | h) | h
    · exact ⟨d, List.mem_cons_self _ _, Or.inl rfl⟩
    · exact ⟨c, List.mem_cons_self _ _, Or.inr h⟩
    · rcases ih h with ⟨c', hc', hd⟩
      exact ⟨c', List.mem_cons_of_mem _ hc', hd⟩

theorem descList_attrsOk {cs : List Node} (h : ∀ c ∈ cs, nodeAttrsOk c) :
    ∀ d ∈ descList cs, keysNoUpper d.attrs := by
  intro d hd
  rcases descList_mem_decomp hd with ⟨c, hc, rfl | hdc⟩
  · exact (h _ hc).1
  · exact (h c hc).2 d hdc

theorem toNode_attrsOk {f : Frame} (h : frameOk f) : nodeAttrsOk f.toNode := by
  refine ⟨h.1, ?_⟩
  intro d hd
  rw [Frame.toNode, descendants_eq] at hd
  exact descList_attrsOk h.2 d hd

theorem addChild_frameOk {st : List Frame} {n : Node}
    (hst : ∀ f ∈ st, frameOk f) (hn : nodeAttrsOk n) :
    ∀ f ∈ addChild n st, frameOk f := by
  match st with
  | [] => intro f hf; cases hf
  | top :: rest =>
    intro f hf
    simp only [addChild] at hf
    rcases List.mem_cons.mp hf with rfl | hf
    · have htop := hst top (List.mem_cons_self _ _)
      refine ⟨htop.1, ?_⟩
      intro c hc
      rcases List.mem_append.mp hc with hc | hc
      · exact htop.2 c hc
      · rcases List.mem_singleton.mp hc with rfl; exact hn
    · exact hst f (List.mem_cons_of_mem _ hf)

theorem buildStep_frameOk {st : List Frame} {tok : Token}
    (hst : ∀ f ∈ st, frameOk f) (htok : tokenAttrsOk tok) :
    ∀ f ∈ buildStep st tok, frameOk f := by
  match tok with
  | .text c =>
    simp only [buildStep]
    split
    · exact hst
    · refine addChild_frameOk hst ⟨?_, ?_⟩
      · intro kv hkv; cases hkv
      · intro d hd; cases hd
  | .openTag tag attrs =>
    intro f hf
    simp only [buildStep] at hf
    rcases List.mem_cons.mp hf with rfl | hf
    · exact ⟨htok, by intro c hc; cases hc⟩
    · exact hst f hf
  | .selfClose tag attrs =>
    refine addChild_frameOk hst ⟨htok, ?_⟩
    intro d hd
    rw [descendants_eq] at hd
    cases hd
  | .closeTag tag =>
    match st with
    | [] => exact hst
    | [f] => exact hst
    | top :: next :: rest =>
      intro f hf
      simp only [buildStep] at hf
      by_cases htag : top.tag = tag
      · rw [if_pos htag] at hf
        exact addChild_frameOk (fun g hg => hst g (List.mem_cons_of_mem _ hg))
          (toNode_attrsOk (hst top (List.mem_cons_self _ _))) f hf
      · rw [if_neg htag] at hf
        exact hst f hf

theorem foldl_frameOk :
    ∀ (tokens : List Token) (st : List Frame),
      (∀ f ∈ st, frameOk f) → (∀ tok ∈ tokens, tokenAttrsOk tok) →
      ∀ f ∈ tokens.foldl buildStep st, frameOk f := by
  intro tokens
  induction tokens with
  | nil => intro st hst _ f hf; exact hst f hf
  | cons tok toks ih =>
    intro st hst htoks
    simp only [List.foldl_cons]
    exact ih _ (buildStep_frameOk hst (htoks tok (List.mem_cons_self _ _)))
      (fun t ht => htoks t (List.mem_cons_of_mem _ ht))

theorem finalizeAux_attrsOk :
    ∀ (rest : List Frame) (f : Frame), frameOk f → (∀ g ∈ rest, frameOk g) →
      nodeAttrsOk (finalizeAux f rest) := by
  intro rest
  induction rest with
  | nil => intro f hf _; exact toNode_attrsOk hf
  | cons next rest' ih =>
    intro f hf hrest
    simp only [finalizeAux]
    refine ih _ ?_ (fun g hg => hrest g (List.mem_cons_of_mem _ hg))
    have hnext := hrest next (List.mem_cons_self _ _)
    refine ⟨hnext.1, ?_⟩
    intro c hc
    rcases List.mem_append.mp hc with hc | hc
    · exact hnext.2 c hc
    · rcases List.mem_singleton.mp hc with rfl
      exact toNode_attrsOk hf

theorem buildTree_attrsOk {tokens : List Token}
    (h : ∀ tok ∈ tokens, tokenAttrsOk tok) : nodeAttrsOk (buildTree tokens) := by
  unfold buildTree finalize
  have hfold := foldl_frameOk tokens [rootFrame]
    (by
      intro f hf
      rcases List.mem_singleton.mp hf with rfl
      exact ⟨(by intro kv hkv; cases hkv), (by intro c hc; cases hc)⟩) h
  split
  · exact ⟨(by intro kv hkv; cases hkv),
      (by rw [descendants_eq]; intro d hd; cases hd)⟩
  · rename_i f rest heq
    exact finalizeAux_attrsOk rest f (hfold f (heq ▸ List.mem_cons_self _ _))
      (fun g hg => hfold g (heq ▸ List.mem_cons_of_mem _ hg))

theorem mapGet_none_of_upper {m : List (String × String)} {name : String}
    (hm : keysNoUpper m) (hname : ∃ c ∈ name.data, isUpperAscii c = true) :
    mapGet m name = none := by
  induction m with
  | nil => rfl
  | cons p m' ih =>
    rcases p with ⟨k, v⟩
    simp only [mapGet]
    rw [if_neg, ih (fun q hq => hm q (List.mem_cons_of_mem _ hq))]
    intro he
    subst he
    rcases hname with ⟨c, hc, hup⟩
    have := hm (k, v) (List.mem_cons_self _ _) c hc
    rw [this] at hup
    cases hup

/-- The parse of `<a HREF="x">t</a>`: the attribute key is stored
lowercased. -/
def exUpperA : Node := .mk "a" [("href", "x")] "" [.mk "" [] "t" []]

def exUpperDoc : Node := buildTree (tokenizeStr "<a HREF=\"x\">t</a>")

/-- C10: the tokenizer stores attribute names lowercased, and
`ElementWrapper.attr` is an exact, case-sensitive key lookup, so for every
element parsed from markup, looking up a name that contains an ASCII
uppercase letter returns null — even when the attribute exists under its
lowercase name (`<a HREF="x">` answers `attr("HREF") = null`,
`attr("href") = "x"`). -/
theorem C10_attr_lookup (html name : String) (n : Node)
    (hn : n = buildTree (tokenizeStr html) ∨
      n ∈ descendants (buildTree (tokenizeStr html)))
    (hname : ∃ c ∈ name.data, isUpperAscii c = true) :
    wrapperAttr n name = none ∧
      exUpperDoc = .mk "document" [] "" [exUpperA] ∧
      wrapperAttr exUpperA "HREF" = none ∧
      wrapperAttr exUpperA "href" = some "x" := by
  have hok : nodeAttrsOk (buildTree (tokenizeStr html)) :=
    buildTree_attrsOk (tokenizeF_tokensOk _ _)
  have hkeys : keysNoUpper n.attrs := by
    rcases hn with rfl | hn
    · exact hok.1
    · exact hok.2 n hn
  exact ⟨mapGet_none_of_upper hkeys hname, by decide, rfl, rfl⟩

theorem C10_witness :
    wrapperAttr exUpperA "HREF" = none ∧
      wrapperAttr exUpperA "href" = some "x" :=
  have h := C10_attr_lookup "<a HREF=\"x\">t</a>" "HREF" exUpperA
    (Or.inr (by decide)) ⟨'H', by decide, by decide⟩
  ⟨h.2.2.1, h.2.2.2⟩

/-! ## Claim C8: the tokenizer terminates on every input, without errors -/

theorem idxOf_some_lt {c : Char} :
    ∀ {l : List Char} {k : Nat}, idxOf c l = some k → k < l.length := by
  intro l
  induction l with
  | nil => intro k h; cases h
  | cons a l' ih =>
    intro k h
    simp only [idxOf] at h
    split at h
    · cases h; simp
    · rcases hk : idxOf c l' with _ | k' <;> rw [hk] at h
      · cases h
      · simp at h
        subst h
        have := ih hk
        simp
        omega

theorem isPrefixL_length {pat s : List Char} (h : isPrefixL pat s = true) :
    pat.length ≤ s.length := by
  induction pat generalizing s with
  | nil => simp
  | cons p ps ih =>
    match s with
    | [] => cases h
    | a :: as =>
      simp only [isPrefixL] at h
      simp only [Bool.and_eq_true, decide_eq_true_eq] at h
      have := ih h.2
      simp
      omega

theorem subIdx_some_le {pat : List Char} :
    ∀ {l : List Char} {k : Nat}, subIdx pat l = some k →
      k + pat.length ≤ l.length := by
  intro l
  induction l with
  | nil =>
    intro k h
    simp only [subIdx] at h
    split at h
    · rename_i hp
      cases h
      simp [hp]
    · cases h
  | cons a l' ih =>
    intro k h
    simp only [subIdx] at h
    split at h
    · rename_i hp
      cases h
      simpa using isPrefixL_length hp
    · rcases hk : subIdx pat l' with _ | k' <;> rw [hk] at h
      · cases h
      · simp at h
        subst h
        have := ih hk
        simp
        omega

/-- Each continued iteration of the tokenizer consumes at least two
characters of the suffix handed to `tagStep`. -/
theorem tagStep_some_length {t s' : List Char} {ts : List Token}
    (h : tagStep t = (ts, some s')) : s'.length + 2 ≤ t.length := by
  unfold tagStep at h
  rcases hg : idxOf '>' (t.drop 1) with _ | g <;> rw [hg] at h
  · cases h
  · have hgl : g < (t.drop 1).length := idxOf_some_lt hg
    have htl : (t.drop 1).length = t.length - 1 := by simp
    dsimp only [] at h
    split at h
    · split at h
      · simp only [Prod.mk.injEq, Option.some.injEq] at h
        rcases h with ⟨-, h⟩
        subst h
        simp only [List.length_drop]
        omega
      · rename_i k hk
        have := subIdx_some_le hk
        simp only [List.length_drop] at this
        simp only [Prod.mk.injEq, Option.some.injEq] at h
        rcases h with ⟨-, h⟩
        subst h
        simp only [List.length_drop]
        omega
    · split at h
      · simp only [Prod.mk.injEq, Option.some.injEq] at h
        rcases h with ⟨-, h⟩
        subst h
        simp only [List.length_drop]; omega
      · split at h
        · simp only [Prod.mk.injEq, Option.some.injEq] at h
          rcases h with ⟨-, h⟩
          subst h
          simp only [List.length_drop]; omega
        · split at h
          · simp only [Prod.mk.injEq, Option.some.injEq] at h
            rcases h with ⟨-, h⟩
            subst h
            simp only [List.length_drop]; omega
          · split at h
            · split at h
              · simp only [Prod.mk.injEq, Option.some.injEq] at h
                rcases h with ⟨-, h⟩
                subst h
                simp only [List.length_drop]; omega
              · rename_i k hk
                have := subIdx_some_le hk
                simp only [List.length_drop] at this
                simp only [Prod.mk.injEq, Option.some.injEq] at h
                rcases h with ⟨-, h⟩
                subst h
                simp only [List.length_drop]
                omega
            · simp only [Prod.mk.injEq, Option.some.injEq] at h
              rcases h with ⟨-, h⟩
              subst h
              simp only [List.length_drop]; omega

/-- Fuel sufficiency for the tokenizer loop: any two fuels above the input
length give the same token sequence. -/
theorem tokenizeF_congr :
    ∀ (fuel₁ fuel₂ : Nat) (s : List Char), s.length < fuel₁ →
      s.length < fuel₂ → tokenizeF fuel₁ s = tokenizeF fuel₂ s := by
  intro fuel₁
  induction fuel₁ with
  | zero => intro fuel₂ s h1; omega
  | succ f₁ ih =>
    intro fuel₂ s h1 h2
    match fuel₂ with
    | 0 => omega
    | f₂ + 1 =>
      simp only [tokenizeF]
      rcases hlt : idxOf '<' s with _ | lt
      · rfl
      · dsimp only []
        rcases hts : tagStep (s.drop lt) with ⟨ts, os⟩
        rcases os with _ | s'
        · rfl
        · dsimp only []
          have hlen : s'.length + 2 ≤ (s.drop lt).length := tagStep_some_length hts
          have hd : (s.drop lt).length ≤ s.length := by simp
          rw [ih f₂ s' (by omega) (by omega)]

/-- C8: `tokenize` terminates on every input — any fuel above the input
length yields the fixed point, so the loop never runs out — and malformed
input degrades without raising: an unterminated tag is dropped (text before
it is kept), an empty tag name is skipped, an unterminated comment scans to
end of input, and a `<script>` with no closing tag skips only the open tag.
Totality (no exception channel) is expressed by the return type itself. -/
theorem C8_tokenizer_total (s : List Char) (fuel : Nat)
    (hfuel : s.length < fuel) :
    tokenizeF fuel s = tokenize s ∧
      tokenizeStr "<div" = [] ∧
      tokenizeStr "a<div" = [.text "a"] ∧
      tokenizeStr "<>x" = [.text "x"] ∧
      tokenizeStr "<!-- unterminated" = [] ∧
      tokenizeStr "<!--a><p>b</p>" =
        [.openTag "p" [], .text "b", .closeTag "p"] ∧
      tokenizeStr "<script>var x = 1;" = [.text "var x = 1;"] := by
  refine ⟨tokenizeF_congr fuel (s.length + 1) s hfuel (by omega), ?_⟩
  refine ⟨by decide, by decide, by decide, by decide, by decide, by decide⟩

theorem C8_witness : tokenizeF 10 "<p>x</p>".data = tokenize "<p>x</p>".data :=
  (C8_tokenizer_total "<p>x</p>".data 10 (by decide)).1

/-! ## Claim C6: serialize / re-tokenize / re-build round trip

The tokens a well-formed subtree serializes to, and the well-formedness
class for which the round trip holds.  The conditions beyond the claim's
"no comments/doctypes/script/style content" are forced by counterexamples:
text containing `<`, adjacent text siblings (which merge), uppercase or
void-set tags, quotes in attribute values, etc. -/

mutual

/-- The token sequence a node's serialization re-tokenizes to. -/
def tokensOf : Node → List Token
  | .mk tag attrs t cs =>
    if t ≠ "" then [.text t]
    else .openTag tag attrs :: tokensOfList cs ++ [.closeTag tag]

def tokensOfList : List Node → List Token
  | [] => []
  | c :: cs => tokensOf c ++ tokensOfList cs

end

/-- Lowercase-letter or digit: a tag character that tokenization fixes. -/
def isLowerTagChar (c : Char) : Bool :=
  ('a' ≤ c ∧ c ≤ 'z') ∨ ('0' ≤ c ∧ c ≤ '9')

/-- A character allowed in a round-trippable attribute key. -/
def isAttrKeyChar (c : Char) : Bool := isLowerTagChar c ∨ c = '-'

/-- A character allowed in a round-trippable attribute value. -/
def isAttrValChar (c : Char) : Bool := c ≠ '"' ∧ c ≠ '>' ∧ c ≠ '<'

/-- Well-formedness of one attribute entry. -/
def wfAttr (kv : String × String) : Bool :=
  kv.1 ≠ "" ∧ kv.1.data.all isAttrKeyChar ∧ kv.2.data.all isAttrValChar

/-- A text child (non-empty `text`). -/
def isTextNode (n : Node) : Bool := n.text ≠ ""

/-- No two adjacent text children (adjacent serialized texts merge into one
token). -/
def noAdjTexts : List Node → Bool
  | [] => true
  | [_] => true
  | a :: b :: rest => (¬ (isTextNode a ∧ isTextNode b)) ∧ noAdjTexts (b :: rest)

mutual

/-- The round-trippable class: text leaves are non-empty and `<`-free;
elements have non-empty lowercase alphanumeric tags outside the void and
raw-text sets, well-formed attributes with distinct keys, and children with
no two adjacent text leaves. -/
def wfNode : Node → Bool
  | .mk tag attrs t cs =>
    if t ≠ "" then
      tag = "" ∧ attrs = [] ∧ cs = [] ∧ t.data.all (· ≠ '<')
    else
      tag ≠ "" ∧ tag.data.all isLowerTagChar ∧
        ¬ selfClosingTags.contains tag ∧ tag ≠ "script" ∧ tag ≠ "style" ∧
        attrs.all wfAttr ∧ (attrs.map Prod.fst).Nodup ∧
        noAdjTexts cs ∧ wfList cs

def wfList : List Node → Bool
  | [] => true
  | c :: cs => wfNode c ∧ wfList cs

end

/-! Basic scanning lemmas used by the round-trip proof. -/

theorem idxOf_eq_none {c : Char} {l : List Char} (h : ∀ a ∈ l, a ≠ c) :
    idxOf c l = none := by
  induction l with
  | nil => rfl
  | cons a l' ih =>
    simp only [idxOf]
    rw [if_neg (h a (List.mem_cons_self _ _)), ih (fun x hx => h x (List.mem_cons_of_mem _ hx))]
    rfl

theorem idxOf_append {c : Char} {l rest : List Char} (h : ∀ a ∈ l, a ≠ c) :
    idxOf c (l ++ c :: rest) = some l.length := by
  induction l with
  | nil => simp [idxOf]
  | cons a l' ih =>
    simp only [List.cons_append, idxOf]
    rw [if_neg (h a (List.mem_cons_self _ _))]
    simp [ih (fun x hx => h x (List.mem_cons_of_mem _ hx))]

theorem takeWhile_append_eq {p : Char → Bool} {l rest : List Char}
    (hl : ∀ a ∈ l, p a = true)
    (hrest : match rest with | [] => True | r :: _ => p r = false) :
    (l ++ rest).takeWhile p = l := by
  induction l with
  | nil =>
    match rest with
    | [] => rfl
    | r :: rest' => simp [List.takeWhile_cons, hrest]
  | cons a l' ih =>
    simp only [List.cons_append, List.takeWhile_cons,
      hl a (List.mem_cons_self _ _)]
    simp [ih (fun x hx => hl x (List.mem_cons_of_mem _ hx))]

theorem dropWhile_eq_self {p : Char → Bool} {l : List Char}
    (h : match l with | [] => True | a :: _ => p a = false) :
    l.dropWhile p = l := by
  match l with
  | [] => rfl
  | a :: l' => simp [List.dropWhile_cons, h]

theorem trimL_eq_self {l : List Char}
    (h1 : match l with | [] => True | a :: _ => isWs a = false)
    (h2 : match l.getLast? with | none => True | some a => isWs a = false) :
    trimL l = l := by
  unfold trimL
  rw [dropWhile_eq_self h1]
  rw [dropWhile_eq_self ?_, List.reverse_reverse]
  match hl : l.reverse with
  | [] => trivial
  | a :: r =>
    have : l.getLast? = some a := by
      rw [List.getLast?_eq_head?_reverse, hl]
      rfl
    rw [this] at h2
    exact h2

theorem jsLowerChar_fix {c : Char} (h : isUpperAscii c = false) :
    jsLowerChar c = c := by
  unfold jsLowerChar
  rw [if_neg]
  simpa [isUpperAscii] using h

theorem isLowerTagChar_not_upper {c : Char} (h : isLowerTagChar c = true) :
    isUpperAscii c = false := by
  simp only [isLowerTagChar, Bool.or_eq_true, decide_eq_true_eq] at h
  have hb : ¬ (65 ≤ c.toNat ∧ c.toNat ≤ 90) := by
    rcases h with ⟨h1, h2⟩ | ⟨h1, h2⟩
    · rw [Char.le_def] at h1 h2
      have h1' : 97 ≤ c.toNat := h1
      have h2' : c.toNat ≤ 122 := h2
      omega
    · rw [Char.le_def] at h1 h2
      have h1' : 48 ≤ c.toNat := h1
      have h2' : c.toNat ≤ 57 := h2
      omega
  simp [isUpperAscii, hb]

theorem jsLowerL_fix {l : List Char} (h : ∀ c ∈ l, isUpperAscii c = false) :
    jsLowerL l = l := by
  induction l with
  | nil => rfl
  | cons c l' ih =>
    simp only [jsLowerL, List.map_cons]
    rw [jsLowerChar_fix (h c (List.mem_cons_self _ _))]
    have := ih (fun x hx => h x (List.mem_cons_of_mem _ hx))
    simp only [jsLowerL] at this
    rw [this]

theorem char_toNat_ne {c d : Char} (h : c.toNat ≠ d.toNat) : c ≠ d :=
  fun he => h (by rw [he])

theorem char_le_iff {c d : Char} : c ≤ d ↔ c.toNat ≤ d.toNat := by
  rw [Char.le_def]
  constructor <;> intro h <;> exact h

theorem isLowerTagChar_toNat {c : Char} (h : isLowerTagChar c = true) :
    (97 ≤ c.toNat ∧ c.toNat ≤ 122) ∨ (48 ≤ c.toNat ∧ c.toNat ≤ 57) := by
  simp only [isLowerTagChar, Bool.or_eq_true, decide_eq_true_eq,
    char_le_iff] at h
  exact h

theorem isAttrKeyChar_toNat {c : Char} (h : isAttrKeyChar c = true) :
    (97 ≤ c.toNat ∧ c.toNat ≤ 122) ∨ (48 ≤ c.toNat ∧ c.toNat ≤ 57) ∨
      c.toNat = 45 := by
  simp only [isAttrKeyChar, Bool.or_eq_true, decide_eq_true_eq] at h
  rcases h with h | h
  · rcases isLowerTagChar_toNat h with h | h
    · exact Or.inl h
    · exact Or.inr (Or.inl h)
  · subst h
    exact Or.inr (Or.inr rfl)

theorem isWs_eq_false_of_toNat {c : Char}
    (h : c.toNat ≠ 32 ∧ c.toNat ≠ 9 ∧ c.toNat ≠ 10 ∧ c.toNat ≠ 13) :
    isWs c = false := by
  have e1 : (' ').toNat = 32 := rfl
  have e2 : ('\t').toNat = 9 := rfl
  have e3 : ('\n').toNat = 10 := rfl
  have e4 : ('\x0d').toNat = 13 := rfl
  simp only [isWs, decide_eq_false_iff_not]
  intro hor
  rcases hor with rfl | rfl | rfl | rfl <;> omega

theorem keyChar_facts {c : Char} (h : isAttrKeyChar c = true) :
    isWs c = false ∧ c ≠ '=' ∧ c ≠ '"' ∧ c ≠ '\'' ∧ c ≠ '>' ∧ c ≠ '<' := by
  have hn := isAttrKeyChar_toNat h
  have e1 : ('=').toNat = 61 := rfl
  have e2 : ('"').toNat = 34 := rfl
  have e3 : ('\'').toNat = 39 := rfl
  have e4 : ('>').toNat = 62 := rfl
  have e5 : ('<').toNat = 60 := rfl
  refine ⟨isWs_eq_false_of_toNat (by omega), char_toNat_ne (by omega),
    char_toNat_ne (by omega), char_toNat_ne (by omega),
    char_toNat_ne (by omega), char_toNat_ne (by omega)⟩

theorem tagChar_facts {c : Char} (h : isLowerTagChar c = true) :
    isWs c = false ∧ c ≠ '>' ∧ c ≠ '!' ∧ c ≠ '/' ∧ c ≠ '<' ∧
      isNameChar c = true := by
  have hn := isLowerTagChar_toNat h
  have e1 : ('>').toNat = 62 := rfl
  have e2 : ('!').toNat = 33 := rfl
  have e3 : ('/').toNat = 47 := rfl
  have e4 : ('<').toNat = 60 := rfl
  refine ⟨isWs_eq_false_of_toNat (by omega), char_toNat_ne (by omega),
    char_toNat_ne (by omega), char_toNat_ne (by omega),
    char_toNat_ne (by omega), ?_⟩
  simp only [isNameChar, Bool.or_eq_true, decide_eq_true_eq, char_le_iff]
  rcases hn with h | h
  · exact Or.inl h
  · exact Or.inr (Or.inr (Or.inl h))

theorem valChar_facts {c : Char} (h : isAttrValChar c = true) :
    c ≠ '"' ∧ c ≠ '>' ∧ c ≠ '<' := by
  simp only [isAttrValChar, Bool.and_eq_true, decide_eq_true_eq] at h
  exact h

theorem isAttrKeyChar_not_upper {c : Char} (h : isAttrKeyChar c = true) :
    isUpperAscii c = false := by
  have hn := isAttrKeyChar_toNat h
  simp only [isUpperAscii, decide_eq_false_iff_not, not_and, not_le]
  omega

/-- `mapSet` with a key fresh for the map appends the pair. -/
theorem mapSet_fresh {acc : List (String × String)} {k v : String}
    (h : ∀ kv ∈ acc, kv.1 ≠ k) : mapSet acc k v = acc ++ [(k, v)] := by
  induction acc with
  | nil => rfl
  | cons p acc' ih =>
    rcases p with ⟨k', v'⟩
    simp only [mapSet]
    rw [if_neg (h (k', v') (List.mem_cons_self _ _))]
    rw [ih (fun q hq => h q (List.mem_cons_of_mem _ hq))]
    rfl

/-- Characters of a well-formed serialized attribute list: never `>` and
never whitespace at the first or last position. -/
theorem attrsJoin_no_gt {attrs : List (String × String)}
    (h : attrs.all wfAttr = true) : ∀ c ∈ attrsJoin attrs, c ≠ '>' := by
  induction attrs with
  | nil => intro c hc; cases hc
  | cons kv rest ih =>
    have hkv : wfAttr kv = true := by
      have := List.all_eq_true.mp h kv (List.mem_cons_self _ _)
      exact this
    have hrest : rest.all wfAttr = true := by
      rw [List.all_eq_true]
      intro x hx
      exact List.all_eq_true.mp h x (List.mem_cons_of_mem _ hx)
    simp only [wfAttr, Bool.and_eq_true, decide_eq_true_eq] at hkv
    have hent : ∀ c ∈ attrEntryL kv, c ≠ '>' := by
      intro c hc
      simp only [attrEntryL, List.mem_append, List.mem_cons,
        List.mem_singleton] at hc
      have hc2 : c ∈ kv.1.data ∨ c = '=' ∨ c = '"' ∨ c ∈ kv.2.data := by tauto
      rcases hc2 with hc2 | rfl | rfl | hc2
      · exact (keyChar_facts (List.all_eq_true.mp hkv.2.1 c hc2)).2.2.2.2.1
      · decide
      · decide
      · exact (valChar_facts (List.all_eq_true.mp hkv.2.2 c hc2)).2.1
    match rest with
    | [] =>
      intro c hc
      exact hent c hc
    | r :: rest' =>
      intro c hc
      simp only [attrsJoin] at hc
      rcases List.mem_append.mp hc with hc | hc
      · exact hent c hc
      · rcases List.mem_cons.mp hc with rfl | hc
        · decide
        · exact ih hrest c hc

theorem drop_append_cons {α : Type} (l r : List α) (a : α) :
    (l ++ a :: r).drop (l.length + 1) = r := by
  induction l with
  | nil => simp
  | cons b l ih => simpa using ih

/-- The attribute-scanning loop parses back a well-formed serialized
attribute list, appending the parsed pairs to the accumulator. -/
theorem parseAttrs_roundtrip :
    ∀ (attrs : List (String × String)) (acc : List (String × String))
      (fuel : Nat), attrs.all wfAttr = true →
      (attrs.map Prod.fst).Nodup →
      (∀ kv ∈ acc, ∀ p ∈ attrs, kv.1 ≠ p.1) →
      (attrsJoin attrs).length < fuel →
      parseAttrsLoopF fuel (attrsJoin attrs) acc = acc ++ attrs := by
  intro attrs
  induction attrs with
  | nil =>
    intro acc fuel _ _ _ hfuel
    match fuel with
    | f + 1 => simp [attrsJoin, parseAttrsLoopF]
  | cons kv rest ih =>
    intro acc fuel hwf hnd hfresh hfuel
    rcases kv with ⟨k, v⟩
    have hkv : wfAttr (k, v) = true :=
      List.all_eq_true.mp hwf (k, v) (List.mem_cons_self _ _)
    have hrest : rest.all wfAttr = true := by
      rw [List.all_eq_true]
      intro x hx
      exact List.all_eq_true.mp hwf x (List.mem_cons_of_mem _ hx)
    simp only [wfAttr, Bool.and_eq_true, decide_eq_true_eq] at hkv
    rcases hkv with ⟨hk0, hkchars, hvchars⟩
    -- the serialized head entry followed by the tail
    have hjoin : ∃ tail, attrsJoin ((k, v) :: rest) =
        k.data ++ '=' :: '"' :: v.data ++ '"' :: tail ∧
        ((rest = [] ∧ tail = []) ∨
          (rest ≠ [] ∧ tail = ' ' :: attrsJoin rest)) := by
      match rest with
      | [] =>
        refine ⟨[], ?_, Or.inl ⟨rfl, rfl⟩⟩
        simp [attrsJoin, attrEntryL]
      | r :: rest' =>
        refine ⟨' ' :: attrsJoin (r :: rest'), ?_, Or.inr ⟨by simp, rfl⟩⟩
        simp only [attrsJoin, attrEntryL]
        simp
    rcases hjoin with ⟨tail, hjoin, htail⟩
    rw [hjoin]
    -- one loop iteration consumes the whole entry
    rcases fuel with _ | fuel
    · exfalso
      rw [hjoin] at hfuel
      simp at hfuel
    · rcases hkd : k.data with _ | ⟨kc, ks⟩
      · exact absurd (by rcases k with ⟨d⟩; simp at hkd; simp [hkd]) hk0
      · have hkc : isAttrKeyChar kc = true := by
          apply List.all_eq_true.mp hkchars
          rw [hkd]; exact List.mem_cons_self _ _
        have hkcf := keyChar_facts hkc
        have hkeyall : ∀ a ∈ kc :: ks,
            (fun a => decide (¬ isWs a = true ∧ a ≠ '=')) a = true := by
          intro a ha
          have h1 : isAttrKeyChar a = true := by
            apply List.all_eq_true.mp hkchars
            rw [hkd]; exact ha
          have h2 := keyChar_facts h1
          simp [h2.1, h2.2.1]
        have hname := @takeWhile_append_eq _ (kc :: ks)
          ('=' :: '"' :: v.data ++ '"' :: tail) hkeyall (by simp)
        simp only [List.cons_append] at hname
        have hq : idxOf '"' (v.data ++ '"' :: tail) = some v.data.length :=
          idxOf_append (fun a ha =>
            (valChar_facts (List.all_eq_true.mp hvchars a ha)).1)
        have hpv : parseValue ('=' :: '"' :: v.data ++ '"' :: tail) =
            some (v.data, tail) := by
          have hws1 : isWs '=' = false := by decide
          have hws2 : isWs '"' = false := by decide
          simp [parseValue, List.dropWhile_cons, hws1, hws2, hq,
            List.take_left]
          have hvl : v.length = v.data.length := rfl
          rw [hvl, drop_append_cons]
        have hlower : jsLowerL (kc :: ks) = kc :: ks := by
          apply jsLowerL_fix
          intro c hc
          apply isAttrKeyChar_not_upper
          apply List.all_eq_true.mp hkchars
          rw [hkd]; exact hc
        have hset : mapSet acc ⟨kc :: ks⟩ ⟨v.data⟩ = acc ++ [(k, v)] := by
          rw [show (⟨kc :: ks⟩ : String) = k from by rw [← hkd]]
          rw [show (⟨v.data⟩ : String) = v from rfl]
          exact mapSet_fresh (fun kv hkv =>
            hfresh kv hkv (k, v) (List.mem_cons_self _ _))
        rw [show (kc :: ks) ++ '=' :: '"' :: v.data ++ '"' :: tail =
          kc :: (ks ++ '=' :: '"' :: v.data ++ '"' :: tail) from rfl]
        simp only [parseAttrsLoopF]
        rw [if_neg (by
          intro hor
          rcases hor with h | h
          · rw [hkcf.1] at h; cases h
          · exact hkcf.2.1 h)]
        simp only [List.cons_append, List.append_assoc] at hname hpv
        simp only [List.cons_append, List.append_assoc, hname,
          List.length_cons, List.drop_succ_cons, List.drop_left,
          hpv, hlower, hset]
        -- continue on the tail
        rcases htail with ⟨rfl, rfl⟩ | ⟨-, rfl⟩
        · rcases fuel with _ | f <;> simp [parseAttrsLoopF]
        · rcases fuel with _ | f
          · exfalso
            rw [hjoin] at hfuel
            simp at hfuel
          · simp only [parseAttrsLoopF]
            rw [if_pos (by simp [isWs])]
            have hfuel2 : (attrsJoin rest).length < f := by
              rw [hjoin] at hfuel
              simp at hfuel
              omega
            rw [ih (acc ++ [(k, v)]) f hrest
              (by
                simp only [List.map_cons] at hnd
                exact (List.nodup_cons.mp hnd).2)
              (by
                intro q hq p hp
                rcases List.mem_append.mp hq with hq | hq
                · exact hfresh q hq p (List.mem_cons_of_mem _ hp)
                · rcases List.mem_singleton.mp hq with rfl
                  simp only [List.map_cons] at hnd
                  have hnotin := (List.nodup_cons.mp hnd).1
                  intro he
                  have he2 : k = p.1 := he
                  exact hnotin (by rw [he2]; exact List.mem_map_of_mem Prod.fst hp))
              hfuel2]
            simp

/-! Helpers about `getLast?`, `trimL` and one tokenizer iteration, used by
the round-trip composition proof. -/

theorem takeWhile_all {p : Char → Bool} {l : List Char}
    (h : ∀ a ∈ l, p a = true) : l.takeWhile p = l := by
  induction l with
  | nil => rfl
  | cons a l' ih =>
    rw [List.takeWhile_cons, if_pos (h a (List.mem_cons_self _ _)),
      ih (fun x hx => h x (List.mem_cons_of_mem _ hx))]

theorem mem_of_getLast? {α : Type} {l : List α} {a : α}
    (h : l.getLast? = some a) : a ∈ l := by
  rw [List.getLast?_eq_head?_reverse] at h
  have hm : a ∈ l.reverse := by
    rcases hr : l.reverse with _ | ⟨b, r⟩
    · rw [hr] at h; cases h
    · rw [hr] at h
      cases h
      exact List.mem_cons_self _ _
  exact List.mem_reverse.mp hm

theorem getLast?_append_cons {α : Type} (l : List α) (a : α) (r : List α) :
    (l ++ a :: r).getLast? = (a :: r).getLast? := by
  induction l with
  | nil => rfl
  | cons b l' ih =>
    rw [List.cons_append]
    rcases hl : l' ++ a :: r with _ | ⟨c, xs⟩
    · exact absurd hl (by simp)
    · rw [List.getLast?_cons_cons, ← hl, ih]

theorem attrEntryL_getLast (kv : String × String) :
    (attrEntryL kv).getLast? = some '"' := by
  have hshape : attrEntryL kv = (kv.1.data ++ '=' :: '"' :: kv.2.data) ++ ['"'] := by
    simp [attrEntryL]
  rw [hshape]
  exact List.getLast?_concat _

theorem attrsJoin_ne_nil {kv : String × String}
    {rest : List (String × String)} : attrsJoin (kv :: rest) ≠ [] := by
  match rest with
  | [] =>
    simp only [attrsJoin, attrEntryL]
    simp
  | r :: rest' =>
    simp only [attrsJoin, attrEntryL]
    simp

/-- Shape of a non-empty well-formed serialized attribute list: it starts
with a non-whitespace attribute-key character and ends in `"`. -/
theorem attrsJoin_shape {attrs : List (String × String)}
    (hwf : attrs.all wfAttr = true) :
    ∀ kv rest, attrs = kv :: rest →
      (∃ c r2, attrsJoin attrs = c :: r2 ∧ isWs c = false) ∧
        (attrsJoin attrs).getLast? = some '"' := by
  induction attrs with
  | nil => intro kv rest h; cases h
  | cons p ps ih =>
    intro kv rest h
    have hp : wfAttr p = true := List.all_eq_true.mp hwf p (List.mem_cons_self _ _)
    simp only [wfAttr, Bool.and_eq_true, decide_eq_true_eq] at hp
    rcases hp with ⟨hk0, hkc, -⟩
    rcases hkd : p.1.data with _ | ⟨kc, ks⟩
    · exact absurd (show p.1 = "" from congrArg String.mk hkd) hk0
    · have hkcp : isAttrKeyChar kc = true := by
        apply List.all_eq_true.mp hkc
        rw [hkd]; exact List.mem_cons_self _ _
      have hhead : ∃ c r2, attrsJoin (p :: ps) = c :: r2 ∧ isWs c = false := by
        have hent : attrEntryL p = kc :: (ks ++ '=' :: '"' :: p.2.data ++ ['"']) := by
          simp only [attrEntryL, hkd]
          rfl
        match ps with
        | [] =>
          exact ⟨kc, _, by simp only [attrsJoin]; rw [hent], (keyChar_facts hkcp).1⟩
        | q :: ps' =>
          refine ⟨kc, (ks ++ '=' :: '"' :: p.2.data ++ ['"']) ++
            ' ' :: attrsJoin (q :: ps'), ?_, (keyChar_facts hkcp).1⟩
          simp only [attrsJoin]
          rw [hent]
          simp
      refine ⟨hhead, ?_⟩
      match ps with
      | [] =>
        simp only [attrsJoin]
        exact attrEntryL_getLast p
      | q :: ps' =>
        have hps : (q :: ps').all wfAttr = true := by
          rw [List.all_eq_true]
          intro x hx
          exact List.all_eq_true.mp hwf x (List.mem_cons_of_mem _ hx)
        have hrec := (ih hps q ps' rfl).2
        simp only [attrsJoin]
        rw [getLast?_append_cons]
        rcases hqs : attrsJoin (q :: ps') with _ | ⟨c, xs⟩
        · exact absurd hqs attrsJoin_ne_nil
        · rw [List.getLast?_cons_cons, ← hqs]
          exact hrec

theorem trimL_cons_ws {c : Char} {l : List Char} (h : isWs c = true) :
    trimL (c :: l) = trimL l := by
  simp [trimL, List.dropWhile_cons, h]

theorem tokenize_nil : tokenize [] = [] := rfl

/-- One unfolding of the tokenizer loop at a `<`, for a variable fuel. -/
theorem tokenizeF_lt_step (N : Nat) {r : List Char} {ts : List Token}
    {os : Option (List Char)} (h : tagStep ('<' :: r) = (ts, os)) :
    tokenizeF (N + 1) ('<' :: r) =
      ts ++ os.elim [] (fun s2 => tokenizeF N s2) := by
  simp only [tokenizeF]
  rw [show idxOf '<' ('<' :: r) = some 0 from by simp [idxOf]]
  dsimp only [List.drop_zero, List.take_zero]
  rw [h]
  rcases os with _ | s2 <;> simp

/-- One unfolding of the tokenizer loop at a `<`-free non-empty text prefix,
for a variable fuel: the text token is emitted and the loop continues with
unchanged fuel at the `<`. -/
theorem tokenizeF_text_step (N : Nat) {d r : List Char} (hne : d ≠ [])
    (hfree : ∀ c ∈ d, c ≠ '<') :
    tokenizeF (N + 1) (d ++ '<' :: r) =
      Token.text ⟨d⟩ :: tokenizeF (N + 1) ('<' :: r) := by
  rcases hts : tagStep ('<' :: r) with ⟨ts, os⟩
  rw [tokenizeF_lt_step N hts]
  simp only [tokenizeF]
  rw [idxOf_append hfree]
  dsimp only []
  rw [List.take_left, List.drop_left]
  rw [if_neg (by simpa using hne)]
  rw [hts]
  rcases os with _ | s2 <;> simp

/-- One iteration of the tokenizer at a `<`: the step's tokens are emitted
and scanning continues at the step's suffix. -/
theorem tokenize_lt_step {r s' : List Char} {ts : List Token}
    (h : tagStep ('<' :: r) = (ts, some s')) :
    tokenize ('<' :: r) = ts ++ tokenize s' := by
  have hlen : s'.length + 2 ≤ ('<' :: r).length := tagStep_some_length h
  simp only [List.length_cons] at hlen
  unfold tokenize
  simp only [List.length_cons]
  rw [tokenizeF_lt_step (r.length + 1) h]
  simp only [Option.elim]
  rw [tokenizeF_congr (r.length + 1) (s'.length + 1) s' (by omega) (by omega)]

/-- A `<`-free non-empty text prefix tokenizes to one text token ahead of
the rest. -/
theorem tokenize_text_split {d r : List Char} (hne : d ≠ [])
    (hfree : ∀ c ∈ d, c ≠ '<') :
    tokenize (d ++ '<' :: r) = Token.text ⟨d⟩ :: tokenize ('<' :: r) := by
  unfold tokenize
  simp only [List.length_append, List.length_cons]
  rw [tokenizeF_text_step (d.length + (r.length + 1)) hne hfree]
  rw [tokenizeF_congr (d.length + (r.length + 1) + 1) (r.length + 1 + 1)
    ('<' :: r) (by simp only [List.length_cons]; omega)
    (by simp only [List.length_cons]; omega)]

/-- One tokenizer iteration at a serialized closing tag `</tag>` with a
non-empty all-lowercase-alphanumeric name consumes exactly the tag and emits
one close token. -/
theorem tagStep_close {tag : String} (rest : List Char)
    (hne : tag.data ≠ [])
    (htagc : ∀ c ∈ tag.data, isLowerTagChar c = true) :
    tagStep ('<' :: '/' :: tag.data ++ '>' :: rest) =
      ([Token.closeTag tag], some rest) := by
  have hgt : ∀ c ∈ '/' :: tag.data, c ≠ '>' := by
    intro c hc
    rcases List.mem_cons.mp hc with rfl | hc
    · decide
    · exact (tagChar_facts (htagc c hc)).2.1
  have hidx : idxOf '>' ('/' :: tag.data ++ '>' :: rest) =
      some (tag.data.length + 1) := by
    have h := @idxOf_append '>' ('/' :: tag.data) rest hgt
    simpa using h
  have hbody : ('/' :: (tag.data ++ '>' :: rest)).take (tag.data.length + 1) =
      '/' :: tag.data := by
    have h := List.take_left ('/' :: tag.data) ('>' :: rest)
    simpa using h
  have htrim : trimL ('/' :: tag.data) = '/' :: tag.data := by
    apply trimL_eq_self
    · show isWs '/' = false
      decide
    · rcases hgl : ('/' :: tag.data).getLast? with _ | a
      · trivial
      · have hmem := mem_of_getLast? hgl
        rcases List.mem_cons.mp hmem with rfl | hmem
        · decide
        · exact (tagChar_facts (htagc a hmem)).1
  have htrim2 : trimL tag.data = tag.data := by
    rcases htd : tag.data with _ | ⟨kc, ks⟩
    · rfl
    · apply trimL_eq_self
      · exact (tagChar_facts (htagc kc (by
          rw [htd]; exact List.mem_cons_self _ _))).1
      · rcases hgl : (kc :: ks).getLast? with _ | a
        · trivial
        · have hmem := mem_of_getLast? hgl
          exact (tagChar_facts (htagc a (by rw [htd]; exact hmem))).1
  have hlower : jsLowerL tag.data = tag.data :=
    jsLowerL_fix (fun c hc => isLowerTagChar_not_upper (htagc c hc))
  have hafter : (('<' :: '/' :: tag.data) ++ '>' :: rest).drop
      (tag.data.length + 1 + 2) = rest := by
    have h := drop_append_cons ('<' :: '/' :: tag.data) rest '>'
    simp only [List.length_cons] at h
    rw [show tag.data.length + 1 + 2 = tag.data.length + 1 + 1 + 1 from by
      omega]
    exact h
  unfold tagStep
  rw [show ('<' :: '/' :: tag.data ++ '>' :: rest).drop 1 =
    '/' :: (tag.data ++ '>' :: rest) from rfl]
  rw [show ('/' :: (tag.data ++ '>' :: rest)) =
    '/' :: tag.data ++ '>' :: rest from rfl, hidx]
  dsimp only []
  rw [show ('/' :: tag.data ++ '>' :: rest) =
    '/' :: (tag.data ++ '>' :: rest) from rfl, hbody, htrim]
  rw [if_neg (by simp [isPrefixL])]
  rw [if_neg (by simp [isPrefixL])]
  rw [if_pos (by simp [isPrefixL])]
  rw [show ('/' :: tag.data).drop 1 = tag.data from rfl, htrim2, hlower]
  rw [if_neg hne, hafter]

theorem isPrefixL_cons_ne {p a : Char} {ps s : List Char} (h : p ≠ a) :
    isPrefixL (p :: ps) (a :: s) = false := by
  simp only [isPrefixL, decide_eq_false_iff_not]
  rintro ⟨h1, -⟩
  exact h h1

/-- A list of non-whitespace characters is its own trim. -/
theorem trimL_of_nonWs {l : List Char} (h : ∀ c ∈ l, isWs c = false) :
    trimL l = l := by
  rcases hl : l with _ | ⟨a, l2⟩
  · rfl
  · apply trimL_eq_self
    · exact h a (by rw [hl]; exact List.mem_cons_self _ _)
    · rcases hgl : (a :: l2).getLast? with _ | b
      · trivial
      · exact h b (by rw [hl]; exact mem_of_getLast? hgl)

/-- One tokenizer iteration at a serialized attribute-free open tag
`<tag>` with a non-empty all-lowercase-alphanumeric non-void non-raw-text
name consumes exactly the tag and emits one open token. -/
theorem tagStep_open_noattrs {kc : Char} {ks : List Char} (rest : List Char)
    (htagc : ∀ c ∈ kc :: ks, isLowerTagChar c = true)
    (hvoid : selfClosingTags.contains (⟨kc :: ks⟩ : String) = false)
    (hscript : (⟨kc :: ks⟩ : String) ≠ "script")
    (hstyle : (⟨kc :: ks⟩ : String) ≠ "style") :
    tagStep (('<' :: kc :: ks) ++ '>' :: rest) =
      ([Token.openTag ⟨kc :: ks⟩ []], some rest) := by
  have hkc : isLowerTagChar kc = true := htagc kc (List.mem_cons_self _ _)
  have hgt : ∀ c ∈ kc :: ks, c ≠ '>' := fun c hc =>
    (tagChar_facts (htagc c hc)).2.1
  have hidx : idxOf '>' ((kc :: ks) ++ '>' :: rest) =
      some ((kc :: ks).length) := idxOf_append hgt
  have htrim : trimL (kc :: ks) = kc :: ks :=
    trimL_of_nonWs (fun c hc => (tagChar_facts (htagc c hc)).1)
  have hname : (kc :: ks).takeWhile isNameChar = kc :: ks :=
    takeWhile_all (fun c hc => (tagChar_facts (htagc c hc)).2.2.2.2.2)
  have hlower : jsLowerL (kc :: ks) = kc :: ks :=
    jsLowerL_fix (fun c hc => isLowerTagChar_not_upper (htagc c hc))
  have hafter : (('<' :: kc :: ks) ++ '>' :: rest).drop
      ((kc :: ks).length + 2) = rest := by
    have h := drop_append_cons ('<' :: kc :: ks) rest '>'
    simp only [List.length_cons] at h
    simp only [List.length_cons]
    rw [show ks.length + 1 + 2 = ks.length + 1 + 1 + 1 from by omega]
    exact h
  unfold tagStep
  rw [show (('<' :: kc :: ks) ++ '>' :: rest).drop 1 =
    (kc :: ks) ++ '>' :: rest from rfl, hidx]
  dsimp only []
  rw [List.take_left, htrim]
  rw [if_neg (by
    rw [isPrefixL_cons_ne (Ne.symm (tagChar_facts hkc).2.2.1)]
    simp)]
  rw [if_neg (by
    rw [isPrefixL_cons_ne (Ne.symm (tagChar_facts hkc).2.2.1)]
    simp)]
  rw [if_neg (by
    rw [isPrefixL_cons_ne (Ne.symm (tagChar_facts hkc).2.2.2.1)]
    simp)]
  rw [hname]
  rw [if_neg (by simp)]
  rw [hlower]
  rw [if_neg (by
    rintro (h | h)
    · exact hscript (congrArg String.mk h)
    · exact hstyle (congrArg String.mk h))]
  rw [List.drop_length]
  rw [show trimL [] = [] from rfl]
  rw [if_neg (show ¬(([] : List Char).getLast? = some '/') by simp)]
  rw [if_neg (show ¬((kc :: ks).getLast? = some '/' ∨
      selfClosingTags.contains (⟨kc :: ks⟩ : String) = true) by
    rintro (h | h)
    · have hmem := mem_of_getLast? h
      exact (tagChar_facts (htagc '/' hmem)).2.2.2.1 rfl
    · rw [hvoid] at h
      cases h)]
  rw [hafter]
  rfl

/-- One tokenizer iteration at a serialized open tag with a non-empty
well-formed attribute list: the tag and all attributes are consumed and one
open token carrying the parsed-back attributes is emitted. -/
theorem tagStep_open_attrs {kc : Char} {ks : List Char}
    {attrs : List (String × String)} (rest : List Char)
    (htagc : ∀ c ∈ kc :: ks, isLowerTagChar c = true)
    (hwf : attrs.all wfAttr = true) (hnd : (attrs.map Prod.fst).Nodup)
    (kv0 : String × String) (rs0 : List (String × String))
    (hattrs : attrs = kv0 :: rs0)
    (hvoid : selfClosingTags.contains (⟨kc :: ks⟩ : String) = false)
    (hscript : (⟨kc :: ks⟩ : String) ≠ "script")
    (hstyle : (⟨kc :: ks⟩ : String) ≠ "style") :
    tagStep (('<' :: kc :: ks) ++ (' ' :: attrsJoin attrs) ++ '>' :: rest) =
      ([Token.openTag ⟨kc :: ks⟩ attrs], some rest) := by
  have hkc : isLowerTagChar kc = true := htagc kc (List.mem_cons_self _ _)
  obtain ⟨⟨c0, xs0, hcx, hc0ws⟩, hlast⟩ := attrsJoin_shape hwf kv0 rs0 hattrs
  have hgt : ∀ ch ∈ (kc :: ks) ++ ' ' :: attrsJoin attrs, ch ≠ '>' := by
    intro ch hch
    rcases List.mem_append.mp hch with hch | hch
    · exact (tagChar_facts (htagc ch hch)).2.1
    · rcases List.mem_cons.mp hch with rfl | hch
      · decide
      · exact attrsJoin_no_gt hwf ch hch
  have hidx : idxOf '>' (((kc :: ks) ++ ' ' :: attrsJoin attrs) ++ '>' :: rest) =
      some (((kc :: ks) ++ ' ' :: attrsJoin attrs)).length := idxOf_append hgt
  have hl2 : ((kc :: ks) ++ ' ' :: attrsJoin attrs).getLast? = some '"' := by
    rw [getLast?_append_cons]
    rw [hcx, List.getLast?_cons_cons, ← hcx]
    exact hlast
  have htrim : trimL ((kc :: ks) ++ ' ' :: attrsJoin attrs) =
      (kc :: ks) ++ ' ' :: attrsJoin attrs := by
    apply trimL_eq_self
    · exact (tagChar_facts hkc).1
    · rw [hl2]
      decide
  have hname : ((kc :: ks) ++ ' ' :: attrsJoin attrs).takeWhile isNameChar =
      kc :: ks := by
    apply takeWhile_append_eq
    · exact fun c hc => (tagChar_facts (htagc c hc)).2.2.2.2.2
    · show isNameChar ' ' = false
      decide
  have hlower : jsLowerL (kc :: ks) = kc :: ks :=
    jsLowerL_fix (fun c hc => isLowerTagChar_not_upper (htagc c hc))
  have htrim2 : trimL (' ' :: attrsJoin attrs) = attrsJoin attrs := by
    rw [trimL_cons_ws (by decide)]
    apply trimL_eq_self
    · rw [hcx]
      exact hc0ws
    · rw [hlast]
      decide
  have hparse : parseAttrs (attrsJoin attrs) = attrs := by
    unfold parseAttrs
    have h := parseAttrs_roundtrip attrs [] ((attrsJoin attrs).length + 1)
      hwf hnd (fun kv hkv => absurd hkv (List.not_mem_nil kv)) (by omega)
    simpa using h
  have hafter : (('<' :: ((kc :: ks) ++ ' ' :: attrsJoin attrs)) ++
      '>' :: rest).drop
      ((((kc :: ks) ++ ' ' :: attrsJoin attrs)).length + 2) = rest := by
    have h := drop_append_cons ('<' :: ((kc :: ks) ++ ' ' :: attrsJoin attrs))
      rest '>'
    simp only [List.length_cons] at h
    rw [show ((kc :: ks) ++ ' ' :: attrsJoin attrs).length + 2 =
      ((kc :: ks) ++ ' ' :: attrsJoin attrs).length + 1 + 1 from by omega]
    exact h
  rw [show ('<' :: kc :: ks) ++ (' ' :: attrsJoin attrs) ++ '>' :: rest =
    ('<' :: ((kc :: ks) ++ ' ' :: attrsJoin attrs)) ++ '>' :: rest from by
    simp]
  unfold tagStep
  rw [show (('<' :: ((kc :: ks) ++ ' ' :: attrsJoin attrs)) ++
    '>' :: rest).drop 1 =
    ((kc :: ks) ++ ' ' :: attrsJoin attrs) ++ '>' :: rest from rfl, hidx]
  dsimp only []
  rw [List.take_left, htrim]
  rw [if_neg (by
    rw [show (kc :: ks) ++ ' ' :: attrsJoin attrs =
      kc :: (ks ++ ' ' :: attrsJoin attrs) from rfl]
    rw [isPrefixL_cons_ne (Ne.symm (tagChar_facts hkc).2.2.1)]
    simp)]
  rw [if_neg (by
    rw [show (kc :: ks) ++ ' ' :: attrsJoin attrs =
      kc :: (ks ++ ' ' :: attrsJoin attrs) from rfl]
    rw [isPrefixL_cons_ne (Ne.symm (tagChar_facts hkc).2.2.1)]
    simp)]
  rw [if_neg (by
    rw [show (kc :: ks) ++ ' ' :: attrsJoin attrs =
      kc :: (ks ++ ' ' :: attrsJoin attrs) from rfl]
    rw [isPrefixL_cons_ne (Ne.symm (tagChar_facts hkc).2.2.2.1)]
    simp)]
  rw [hname]
  rw [if_neg (by simp)]
  rw [hlower]
  rw [if_neg (by
    rintro (h | h)
    · exact hscript (congrArg String.mk h)
    · exact hstyle (congrArg String.mk h))]
  rw [List.drop_left, htrim2]
  rw [if_neg (show ¬((attrsJoin attrs).getLast? = some '/') by
    rw [hlast]
    simp)]
  rw [hparse]
  rw [if_neg (show ¬(((kc :: ks) ++ ' ' :: attrsJoin attrs).getLast? =
      some '/' ∨
      selfClosingTags.contains (⟨kc :: ks⟩ : String) = true) by
    rintro (h | h)
    · rw [hl2] at h
      exact absurd h (by decide)
    · rw [hvoid] at h
      cases h)]
  rw [hafter]

/-- A `<`-free non-empty input tokenizes to a single text token. -/
theorem tokenize_text_only {d : List Char} (hne : d ≠ [])
    (hlt : ∀ c ∈ d, c ≠ '<') : tokenize d = [Token.text ⟨d⟩] := by
  unfold tokenize
  simp only [tokenizeF]
  rw [idxOf_eq_none hlt, if_neg hne]

/-! Equation and destructuring lemmas for the round-trip composition. -/

theorem serializeL_elem (tag : String) (attrs : List (String × String))
    (cs : List Node) :
    serializeL (.mk tag attrs "" cs) =
      '<' :: tag.data ++
        (if attrsJoin attrs = [] then [] else ' ' :: attrsJoin attrs) ++
        '>' :: innerL cs ++ '<' :: '/' :: tag.data ++ ['>'] := by
  rfl

theorem serializeL_text (tag : String) (attrs : List (String × String))
    (t : String) (cs : List Node) (ht : t ≠ "") :
    serializeL (.mk tag attrs t cs) = t.data := by
  simp only [serializeL]
  rw [if_pos ht]

theorem tokensOf_elem (tag : String) (attrs : List (String × String))
    (cs : List Node) :
    tokensOf (.mk tag attrs "" cs) =
      Token.openTag tag attrs :: tokensOfList cs ++ [Token.closeTag tag] := by
  rfl

theorem tokensOf_text (tag : String) (attrs : List (String × String))
    (t : String) (cs : List Node) (ht : t ≠ "") :
    tokensOf (.mk tag attrs t cs) = [Token.text t] := by
  simp only [tokensOf]
  rw [if_pos ht]

/-- An element (empty `text`) serializes to a list starting with `<`. -/
theorem serializeL_lt_head (n : Node) (hn : n.text = "") :
    ∃ d, serializeL n = '<' :: d := by
  rcases n with ⟨tag, attrs, t, cs⟩
  have ht : t = "" := hn
  subst ht
  rw [serializeL_elem]
  refine ⟨(tag.data ++
    (if attrsJoin attrs = [] then [] else ' ' :: attrsJoin attrs)) ++
    '>' :: innerL cs ++ '<' :: '/' :: tag.data ++ ['>'], ?_⟩
  simp only [List.cons_append]

theorem wfNode_text {tag : String} {attrs : List (String × String)}
    {t : String} {cs : List Node} (ht : t ≠ "")
    (h : wfNode (.mk tag attrs t cs) = true) :
    tag = "" ∧ attrs = [] ∧ cs = [] ∧ ∀ c ∈ t.data, c ≠ '<' := by
  simp only [wfNode] at h
  rw [if_pos ht] at h
  simp only [decide_eq_true_eq, List.all_eq_true] at h
  exact ⟨h.1, h.2.1, h.2.2.1, h.2.2.2⟩

theorem wfNode_elem {tag : String} {attrs : List (String × String)}
    {cs : List Node} (h : wfNode (.mk tag attrs "" cs) = true) :
    tag.data ≠ [] ∧ (∀ c ∈ tag.data, isLowerTagChar c = true) ∧
      selfClosingTags.contains tag = false ∧
      tag ≠ "script" ∧ tag ≠ "style" ∧
      attrs.all wfAttr = true ∧ (attrs.map Prod.fst).Nodup ∧
      noAdjTexts cs = true ∧ wfList cs = true := by
  simp only [wfNode] at h
  rw [if_neg (by simp)] at h
  simp only [decide_eq_true_eq, List.all_eq_true] at h
  obtain ⟨h1, h2, h3, h4, h5, h6, h7, h8, h9⟩ := h
  refine ⟨?_, h2, ?_, h4, h5, ?_, h7, h8, h9⟩
  · intro hd
    exact h1 (congrArg String.mk hd)
  · rcases hc : selfClosingTags.contains tag with _ | _
    · rfl
    · exact absurd hc h3
  · rw [List.all_eq_true]
    exact h6

theorem wfList_cons {c : Node} {cs : List Node}
    (h : wfList (c :: cs) = true) : wfNode c = true ∧ wfList cs = true := by
  simp only [wfList, decide_eq_true_eq] at h
  exact h

theorem noAdjTexts_tail {a : Node} {l : List Node}
    (h : noAdjTexts (a :: l) = true) : noAdjTexts l = true := by
  match l with
  | [] => rfl
  | b :: r =>
    simp only [noAdjTexts, decide_eq_true_eq] at h
    exact h.2

theorem noAdjTexts_pair {a b : Node} {l : List Node}
    (h : noAdjTexts (a :: b :: l) = true) (ha : isTextNode a = true) :
    isTextNode b = false := by
  simp only [noAdjTexts, decide_eq_true_eq] at h
  rcases hb : isTextNode b with _ | _
  · rfl
  · exact absurd ⟨ha, hb⟩ h.1

theorem text_empty_of_not_textNode {n : Node} (h : isTextNode n = false) :
    n.text = "" := by
  simp only [isTextNode, decide_eq_false_iff_not, Ne, not_not] at h
  exact h

/-- Composition of tokenization over a serialized well-formed subtree: the
serialization re-tokenizes to the subtree's token list, in front of the
tokens of any continuation that is empty or starts at a `<`. -/
theorem tok_comp : ∀ (W : Nat) (n : Node) (rest : List Char),
    nodeWeight n ≤ W → wfNode n = true →
    (isTextNode n = true → rest = [] ∨ ∃ r2, rest = '<' :: r2) →
    tokenize (serializeL n ++ rest) = tokensOf n ++ tokenize rest := by
  intro W
  induction W with
  | zero =>
    intro n rest hW
    have := nodeWeight_pos n
    omega
  | succ W ih =>
    intro n rest hW hwf hguard
    rcases n with ⟨tag, attrs, t, cs⟩
    by_cases ht : t = ""
    · subst ht
      obtain ⟨hne, htagc, hvoid, hscript, hstyle, hwfa, hnd, hadj, hwl⟩ :=
        wfNode_elem hwf
      rcases htd : tag.data with _ | ⟨kc, ks⟩
      · exact absurd htd hne
      have hteq : (⟨kc :: ks⟩ : String) = tag := by rw [← htd]
      have htagc2 : ∀ c ∈ kc :: ks, isLowerTagChar c = true := fun c hc =>
        htagc c (by rw [htd]; exact hc)
      have hvoid2 : selfClosingTags.contains (⟨kc :: ks⟩ : String) = false := by
        rw [hteq]; exact hvoid
      have hscript2 : (⟨kc :: ks⟩ : String) ≠ "script" := by
        rw [hteq]; exact hscript
      have hstyle2 : (⟨kc :: ks⟩ : String) ≠ "style" := by
        rw [hteq]; exact hstyle
      have hcsW : nodesWeight cs ≤ W := by
        have he : nodeWeight (Node.mk tag attrs "" cs) =
          1 + 2 * nodesWeight cs := rfl
        omega
      have hlist : ∀ cs2, nodesWeight cs2 ≤ W → wfList cs2 = true →
          noAdjTexts cs2 = true → ∀ r2 : List Char,
          tokenize (innerL cs2 ++ '<' :: r2) =
            tokensOfList cs2 ++ tokenize ('<' :: r2) := by
        intro cs2
        induction cs2 with
        | nil =>
          intro _ _ _ r2
          simp [innerL, tokensOfList]
        | cons c cs3 ihl =>
          intro hw2 hwl2 hadj2 r2
          obtain ⟨hwc, hwcs3⟩ := wfList_cons hwl2
          have hsum : nodesWeight (c :: cs3) =
            nodeWeight c + nodesWeight cs3 := rfl
          have hcW : nodeWeight c ≤ W := by omega
          have hguardc : isTextNode c = true →
              innerL cs3 ++ '<' :: r2 = [] ∨
                ∃ r3, innerL cs3 ++ '<' :: r2 = '<' :: r3 := by
            intro htxt
            rcases cs3 with _ | ⟨c2, cs4⟩
            · exact Or.inr ⟨r2, by simp [innerL]⟩
            · have hnt2 := noAdjTexts_pair hadj2 htxt
              have ht2 := text_empty_of_not_textNode hnt2
              obtain ⟨d, hd⟩ := serializeL_lt_head c2 ht2
              refine Or.inr ⟨d ++ innerL cs4 ++ '<' :: r2, ?_⟩
              rw [show innerL (c2 :: cs4) = serializeL c2 ++ innerL cs4 from
                rfl, hd]
              simp
          have hstep := ih c (innerL cs3 ++ '<' :: r2) hcW hwc hguardc
          rw [show innerL (c :: cs3) ++ '<' :: r2 =
            serializeL c ++ (innerL cs3 ++ '<' :: r2) from by
            simp [innerL]]
          rw [hstep]
          rw [ihl (by
            have hp := nodeWeight_pos c
            omega) hwcs3 (noAdjTexts_tail hadj2) r2]
          rw [show tokensOfList (c :: cs3) =
            tokensOf c ++ tokensOfList cs3 from rfl]
          simp [List.append_assoc]
      have hclose := @tagStep_close tag rest hne htagc
      rw [htd] at hclose
      rcases hattrs : attrs with _ | ⟨kv0, rs0⟩
      · have hser : serializeL (Node.mk tag [] "" cs) ++ rest =
            '<' :: ((kc :: ks) ++ '>' ::
              (innerL cs ++ '<' :: (('/' :: kc :: ks) ++ '>' :: rest))) := by
          rw [serializeL_elem, htd]
          simp [attrsJoin]
        rw [hser]
        have hopen := tagStep_open_noattrs
          (innerL cs ++ '<' :: (('/' :: kc :: ks) ++ '>' :: rest))
          htagc2 hvoid2 hscript2 hstyle2
        have hopen2 : tagStep ('<' :: ((kc :: ks) ++ '>' ::
            (innerL cs ++ '<' :: (('/' :: kc :: ks) ++ '>' :: rest)))) =
            ([Token.openTag ⟨kc :: ks⟩ []],
              some (innerL cs ++ '<' :: (('/' :: kc :: ks) ++ '>' :: rest))) :=
          hopen
        have hclose2 : tagStep ('<' :: (('/' :: kc :: ks) ++ '>' :: rest)) =
            ([Token.closeTag tag], some rest) := hclose
        rw [tokenize_lt_step hopen2]
        rw [hlist cs hcsW hwl hadj (('/' :: kc :: ks) ++ '>' :: rest)]
        rw [tokenize_lt_step hclose2]
        rw [tokensOf_elem, hteq]
        simp
      · rw [hattrs] at hwfa hnd
        have haj : attrsJoin (kv0 :: rs0) ≠ [] := attrsJoin_ne_nil
        have hser : serializeL (Node.mk tag (kv0 :: rs0) "" cs) ++ rest =
            '<' :: (((kc :: ks) ++ ' ' :: attrsJoin (kv0 :: rs0)) ++ '>' ::
              (innerL cs ++ '<' :: (('/' :: kc :: ks) ++ '>' :: rest))) := by
          rw [serializeL_elem, htd]
          rw [if_neg haj]
          simp
        rw [hser]
        have hopen := tagStep_open_attrs
          (innerL cs ++ '<' :: (('/' :: kc :: ks) ++ '>' :: rest))
          htagc2 hwfa hnd kv0 rs0 rfl hvoid2 hscript2 hstyle2
        have hopen2 : tagStep ('<' ::
            (((kc :: ks) ++ ' ' :: attrsJoin (kv0 :: rs0)) ++ '>' ::
              (innerL cs ++ '<' :: (('/' :: kc :: ks) ++ '>' :: rest)))) =
            ([Token.openTag ⟨kc :: ks⟩ (kv0 :: rs0)],
              some (innerL cs ++ '<' ::
                (('/' :: kc :: ks) ++ '>' :: rest))) := by
          rw [show '<' ::
            (((kc :: ks) ++ ' ' :: attrsJoin (kv0 :: rs0)) ++ '>' ::
              (innerL cs ++ '<' :: (('/' :: kc :: ks) ++ '>' :: rest))) =
            ('<' :: kc :: ks) ++ (' ' :: attrsJoin (kv0 :: rs0)) ++ '>' ::
              (innerL cs ++ '<' :: (('/' :: kc :: ks) ++ '>' :: rest))
            from by simp]
          exact hopen
        have hclose2 : tagStep ('<' :: (('/' :: kc :: ks) ++ '>' :: rest)) =
            ([Token.closeTag tag], some rest) := hclose
        rw [tokenize_lt_step hopen2]
        rw [hlist cs hcsW hwl hadj (('/' :: kc :: ks) ++ '>' :: rest)]
        rw [tokenize_lt_step hclose2]
        rw [tokensOf_elem, hteq]
        simp
    · obtain ⟨-, -, -, hfree⟩ := wfNode_text ht hwf
      have hdne : t.data ≠ [] := fun h => ht (congrArg String.mk h)
      rw [serializeL_text tag attrs t cs ht, tokensOf_text tag attrs t cs ht]
      rcases hguard (by simp [isTextNode, Node.text]; exact ht) with rfl |
        ⟨r2, rfl⟩
      · rw [List.append_nil, tokenize_text_only hdne hfree]
        rfl
      · rw [tokenize_text_split hdne hfree]
        rfl

/-- Folding the tree builder over a well-formed subtree's token list
appends exactly that subtree as a child of the innermost open frame. -/
theorem fold_tokensOf : ∀ (W : Nat) (n : Node) (st : List Frame),
    nodeWeight n ≤ W → wfNode n = true → st ≠ [] →
    List.foldl buildStep st (tokensOf n) = addChild n st := by
  intro W
  induction W with
  | zero =>
    intro n st hW
    have := nodeWeight_pos n
    omega
  | succ W ih =>
    intro n st hW hwf hst
    rcases n with ⟨tag, attrs, t, cs⟩
    by_cases ht : t = ""
    · subst ht
      obtain ⟨-, -, -, -, -, -, -, -, hwl⟩ := wfNode_elem hwf
      have hcsW : nodesWeight cs ≤ W := by
        have he : nodeWeight (Node.mk tag attrs "" cs) =
          1 + 2 * nodesWeight cs := rfl
        omega
      have hlist : ∀ cs2 (f : Frame) (st2 : List Frame),
          nodesWeight cs2 ≤ W → wfList cs2 = true →
          List.foldl buildStep (f :: st2) (tokensOfList cs2) =
            ({ f with children := f.children ++ cs2 }) :: st2 := by
        intro cs2
        induction cs2 with
        | nil =>
          intro f st2 _ _
          simp [tokensOfList]
        | cons c cs3 ihl =>
          intro f st2 hw2 hwl2
          obtain ⟨hwc, hwcs3⟩ := wfList_cons hwl2
          have hsum : nodesWeight (c :: cs3) =
            nodeWeight c + nodesWeight cs3 := rfl
          have hcW : nodeWeight c ≤ W := by omega
          rw [show tokensOfList (c :: cs3) =
            tokensOf c ++ tokensOfList cs3 from rfl]
          rw [List.foldl_append]
          rw [ih c (f :: st2) hcW hwc (by simp)]
          rw [show addChild c (f :: st2) =
            ({ f with children := f.children ++ [c] }) :: st2 from rfl]
          rw [ihl ({ f with children := f.children ++ [c] }) st2
            (by omega) hwcs3]
          simp [List.append_assoc]
      rw [tokensOf_elem]
      rw [show List.foldl buildStep st
        (Token.openTag tag attrs :: tokensOfList cs ++ [Token.closeTag tag]) =
        List.foldl buildStep (⟨tag, attrs, []⟩ :: st)
          (tokensOfList cs ++ [Token.closeTag tag]) from rfl]
      rw [List.foldl_append]
      rw [hlist cs ⟨tag, attrs, []⟩ st hcsW hwl]
      rcases st with _ | ⟨s0, st'⟩
      · exact absurd rfl hst
      · show buildStep
          ({ tag := tag, attrs := attrs, children := [] ++ cs } :: s0 :: st')
          (Token.closeTag tag) = addChild (Node.mk tag attrs "" cs) (s0 :: st')
        simp [buildStep, Frame.toNode]
    · obtain ⟨htag0, hat0, hcs0, -⟩ := wfNode_text ht hwf
      subst htag0
      subst hat0
      subst hcs0
      rw [tokensOf_text _ _ _ _ ht]
      show buildStep st (Token.text t) = addChild (Node.mk "" [] t []) st
      simp [buildStep, ht]

/-- C6: serialize / re-tokenize / re-build round trip, on the class
`wfNode`: for every subtree whose text leaves are non-empty, `<`-free and
never adjacent, and whose elements have non-empty lowercase alphanumeric
tags outside the void/script/style sets with well-formed distinct-key
attributes, re-parsing `toString` output rebuilds exactly the original
subtree under the synthetic `document` root. -/
theorem C6_serialize_roundtrip (n : Node) (h : wfNode n = true) :
    buildTree (tokenize (serializeL n)) = Node.mk "document" [] "" [n] := by
  have htok : tokenize (serializeL n) = tokensOf n := by
    have hc := tok_comp (nodeWeight n) n [] (le_refl _) h (fun _ => Or.inl rfl)
    rw [List.append_nil] at hc
    rw [hc, tokenize_nil, List.append_nil]
  rw [htok]
  unfold buildTree
  rw [fold_tokensOf (nodeWeight n) n [rootFrame] (le_refl _) h (by simp)]
  simp [addChild, rootFrame, finalize, finalizeAux, Frame.toNode]

/-- A subtree with two adjacent text children: no comments, doctypes or
script/style content, yet the round trip merges the two leaves. -/
def exAdj : Node :=
  .mk "div" [] "" [.mk "" [] "a" [], .mk "" [] "b" []]

/-- C6 counterexample: `<div>` with text children `a`, `b` serializes to
`<div>ab</div>`, which re-tokenizes to a single text token, so the rebuilt
tree differs from the original — the claim needs the no-adjacent-text (and
related well-formedness) conditions. -/
theorem C6_counterexample :
    buildTree (tokenize (serializeL exAdj)) ≠
      Node.mk "document" [] "" [exAdj] := by
  decide

/-- A concrete well-formed subtree for the C6 witness. -/
def exC6 : Node :=
  .mk "div" [("id", "x")] "" [.mk "span" [] "" [.mk "" [] "hi" []]]

theorem C6_witness :
    wfNode exC6 = true ∧
      buildTree (tokenize (serializeL exC6)) =
        Node.mk "document" [] "" [exC6] :=
  ⟨by decide, C6_serialize_roundtrip exC6 (by decide)⟩

end Htmlux
